import Mathlib

/-!
Verification of the textarea note editor's text transforms.

Shallow embedding of the repository's string-transformation code:
the HTML→Markdown converter (`htmlToMarkdown` in `NotesPanel.tsx` /
`HelpPanel.tsx`), the per-element Markdown preview
(`htmlToMarkdownPreview` in `TiptapEditor.tsx`), the overlay editor's
click/commit state machine (`handleEditorClick` / `applyEdit`), the note
deletion handler (`handleDeleteNote`), and the URL-state codec described
in the specification.  Strings are modelled as `List Char`; each
JavaScript `String.replace(regex, …)` pass is modelled as a left-to-right
scanner with the exact semantics of the regex used at that source line.
-/

set_option maxRecDepth 100000

namespace Textarea

/-- Convert a string literal to the `List Char` representation used throughout. -/
def lc (s : String) : List Char := s.data

/-- Characters matched by JavaScript `\s` and removed by `String.prototype.trim`. -/
def isJsSpace (c : Char) : Bool :=
  c == ' ' || c == '\t' || c == '\n' || c == '\r' || c == '\x0b' || c == '\x0c' ||
  c == ' ' || c == ' ' ||
  (decide (' ' ≤ c) && decide (c ≤ ' ')) ||
  c == ' ' || c == ' ' || c == ' ' || c == ' ' || c == '﻿' || c == '　'

/-- JavaScript line terminators: `.` in a regex without the `s` flag matches
everything except these. -/
def isLineTerm (c : Char) : Bool :=
  c == '\n' || c == '\r' || c == ' ' || c == ' '

/-- ASCII lower-casing, written as an explicit table so that facts about it
reduce by case analysis. -/
def lowerChar : Char → Char
  | 'A' => 'a' | 'B' => 'b' | 'C' => 'c' | 'D' => 'd' | 'E' => 'e' | 'F' => 'f'
  | 'G' => 'g' | 'H' => 'h' | 'I' => 'i' | 'J' => 'j' | 'K' => 'k' | 'L' => 'l'
  | 'M' => 'm' | 'N' => 'n' | 'O' => 'o' | 'P' => 'p' | 'Q' => 'q' | 'R' => 'r'
  | 'S' => 's' | 'T' => 't' | 'U' => 'u' | 'V' => 'v' | 'W' => 'w' | 'X' => 'x'
  | 'Y' => 'y' | 'Z' => 'z'
  | c => c

/-- Character comparison; `ci = true` is the case-insensitive comparison used by
regexes carrying the `i` flag. -/
def chEq (ci : Bool) (a b : Char) : Bool :=
  if ci then lowerChar a == lowerChar b else a == b

/-- Match a literal at the start of `s`; on success return the remainder. -/
def dropPrefixG (ci : Bool) : List Char → List Char → Option (List Char)
  | [], s => some s
  | _ :: _, [] => none
  | p :: ps, c :: cs => if chEq ci c p then dropPrefixG ci ps cs else none

/-- Does the literal occur at the start of `s`? -/
def isPrefixG (ci : Bool) (p s : List Char) : Bool :=
  (dropPrefixG ci p s).isSome

/-- Lazy search for a closing literal, as performed by `(.*?)close` (or
`([\s\S]*?)close` when `dotAll`): the shortest capture, failing (when not
`dotAll`) if a line terminator appears before the closing literal. -/
def findClose (ci dotAll : Bool) (close : List Char) : List Char → Option (List Char × List Char)
  | [] =>
    match dropPrefixG ci close [] with
    | some r => some ([], r)
    | none => none
  | c :: rest =>
    match dropPrefixG ci close (c :: rest) with
    | some r => some ([], r)
    | none =>
      if !dotAll && isLineTerm c then none
      else
        match findClose ci dotAll close rest with
        | some (cap, r) => some (c :: cap, r)
        | none => none

/-- Consume `[^>]*>`: everything up to and including the first `>`. -/
def consumeToGt : List Char → Option (List Char)
  | [] => none
  | c :: r => if c = '>' then some r else consumeToGt r

/-- One step of `String.replace(/<name[^>]*>(CAP)<\/name>/gi, …)` at the current
position: match the opening tag, the lazy capture and the closing tag, and
return the replacement built by `mk` together with the remaining input. -/
def tryTag (name : List Char) (dotAll : Bool) (mk : List Char → List Char)
    (s : List Char) : Option (List Char × List Char) :=
  match dropPrefixG true ('<' :: name) s with
  | none => none
  | some r1 =>
    match consumeToGt r1 with
    | none => none
    | some r2 =>
      match findClose true dotAll ('<' :: '/' :: (name ++ ['>'])) r2 with
      | none => none
      | some (cap, rest) => some (mk cap, rest)

/-- One step of a case-sensitive literal replacement (`/&amp;/g` and friends). -/
def tryLit (pat rep : List Char) (s : List Char) : Option (List Char × List Char) :=
  match dropPrefixG false pat s with
  | none => none
  | some r => some (rep, r)

/-- Fuelled driver for `String.replace(regex, …)` with the `g` flag: scan left
to right, replacing each match and continuing after it. -/
def replaceScanF (f : List Char → Option (List Char × List Char)) :
    Nat → List Char → List Char
  | _, [] => []
  | 0, s => s
  | n + 1, c :: rest =>
    match f (c :: rest) with
    | some (rep, after) => rep ++ replaceScanF f n after
    | none => c :: replaceScanF f n rest

/-- Global regex replacement. -/
def replaceScan (f : List Char → Option (List Char × List Char)) (s : List Char) :
    List Char :=
  replaceScanF f s.length s

/-- A matcher that always consumes at least one character. -/
def Shrink (f : List Char → Option (List Char × List Char)) : Prop :=
  ∀ s rep a, f s = some (rep, a) → a.length < s.length

/-- A matcher that can only fire when the head character satisfies `trig`. -/
def HeadTrig (f : List Char → Option (List Char × List Char)) (trig : Char → Bool) : Prop :=
  ∀ c r, trig c = false → f (c :: r) = none

theorem dropPrefixG_length {ci : Bool} :
    ∀ {p s r : List Char}, dropPrefixG ci p s = some r → r.length + p.length = s.length := by
  intro p
  induction p with
  | nil => intro s r h; simp [dropPrefixG] at h; simp [h]
  | cons a as ih =>
    intro s r h
    cases s with
    | nil => simp [dropPrefixG] at h
    | cons c cs =>
      simp only [dropPrefixG] at h
      by_cases hc : chEq ci c a
      · simp [hc] at h
        have := ih h
        simp [List.length_cons]
        omega
      · simp [hc] at h

theorem findClose_length {ci dotAll : Bool} {close : List Char} :
    ∀ {s cap r : List Char}, findClose ci dotAll close s = some (cap, r) →
      r.length ≤ s.length := by
  intro s
  induction s with
  | nil =>
    intro cap r h
    simp only [findClose] at h
    split at h
    · rename_i r2 hd
      simp only [Option.some.injEq, Prod.mk.injEq] at h
      obtain ⟨-, hr⟩ := h
      have := dropPrefixG_length hd
      subst hr
      omega
    · exact absurd h (by simp)
  | cons c rest ih =>
    intro cap r h
    simp only [findClose] at h
    split at h
    · rename_i r2 hd
      simp only [Option.some.injEq, Prod.mk.injEq] at h
      obtain ⟨-, hr⟩ := h
      have := dropPrefixG_length hd
      subst hr
      simp only [List.length_cons] at this ⊢
      omega
    · rename_i hd
      split at h
      · exact absurd h (by simp)
      · split at h
        · rename_i cap2 r2 hf
          simp only [Option.some.injEq, Prod.mk.injEq] at h
          obtain ⟨-, hr⟩ := h
          subst hr
          have := ih hf
          simp only [List.length_cons]
          omega
        · exact absurd h (by simp)

theorem consumeToGt_length : ∀ {s r : List Char}, consumeToGt s = some r →
    r.length < s.length := by
  intro s
  induction s with
  | nil => intro r h; simp [consumeToGt] at h
  | cons c rest ih =>
    intro r h
    simp only [consumeToGt] at h
    by_cases hc : c = '>'
    · simp [hc] at h
      subst h
      simp
    · simp only [hc, if_false] at h
      have := ih h
      simp [List.length_cons]
      omega

theorem tryTag_shrink {name : List Char} {dotAll : Bool} {mk : List Char → List Char} :
    Shrink (tryTag name dotAll mk) := by
  intro s rep a h
  simp only [tryTag] at h
  split at h
  · exact absurd h (by simp)
  · rename_i r1 h1
    split at h
    · exact absurd h (by simp)
    · rename_i r2 h2
      split at h
      · exact absurd h (by simp)
      · rename_i cap rest h3
        simp only [Option.some.injEq, Prod.mk.injEq] at h
        obtain ⟨-, hr⟩ := h
        subst hr
        have e1 := dropPrefixG_length h1
        have e2 := consumeToGt_length h2
        have e3 := findClose_length h3
        simp only [List.length_cons] at e1
        omega

theorem tryLit_shrink {pat rep : List Char} (hp : pat ≠ []) :
    Shrink (tryLit pat rep) := by
  intro s rp a h
  simp only [tryLit] at h
  split at h
  · exact absurd h (by simp)
  · rename_i r hd
    simp only [Option.some.injEq, Prod.mk.injEq] at h
    obtain ⟨-, hr⟩ := h
    subst hr
    have := dropPrefixG_length hd
    have : pat.length ≠ 0 := by simpa using fun hn => hp (List.length_eq_zero.mp hn)
    omega

/-- The scan result does not depend on the fuel once the fuel covers the input
length, for any matcher that always consumes input. -/
theorem replaceScanF_fuel {f : List Char → Option (List Char × List Char)}
    (hf : Shrink f) :
    ∀ (N : Nat) (s : List Char) (n : Nat), s.length ≤ n → s.length ≤ N →
      replaceScanF f n s = replaceScanF f s.length s := by
  intro N
  induction N with
  | zero =>
    intro s n _ hN
    have : s = [] := List.length_eq_zero.mp (Nat.le_zero.mp hN)
    subst this
    cases n <;> rfl
  | succ N ih =>
    intro s n hn hN
    cases s with
    | nil => cases n <;> rfl
    | cons c rest =>
      simp only [List.length_cons] at hn hN
      cases n with
      | zero => omega
      | succ n =>
        simp only [replaceScanF, List.length_cons]
        cases hm : f (c :: rest) with
        | none =>
          have h1 : replaceScanF f n rest = replaceScanF f rest.length rest :=
            ih rest n (by omega) (by omega)
          show c :: replaceScanF f n rest = c :: replaceScanF f rest.length rest
          rw [h1]
        | some pr =>
          obtain ⟨rep, after⟩ := pr
          have hlt : after.length < rest.length + 1 := hf _ _ _ hm
          have h1 : replaceScanF f n after = replaceScanF f after.length after :=
            ih after n (by omega) (by omega)
          have h2 : replaceScanF f rest.length after = replaceScanF f after.length after :=
            ih after rest.length (by omega) (by omega)
          show rep ++ replaceScanF f n after = rep ++ replaceScanF f rest.length after
          rw [h1, h2]

theorem replaceScan_nil {f : List Char → Option (List Char × List Char)} :
    replaceScan f [] = [] := rfl

theorem replaceScan_cons_none {f : List Char → Option (List Char × List Char)}
    {c : Char} {rest : List Char} (h : f (c :: rest) = none) :
    replaceScan f (c :: rest) = c :: replaceScan f rest := by
  simp only [replaceScan, List.length_cons, replaceScanF, h]

theorem replaceScan_cons_match {f : List Char → Option (List Char × List Char)}
    (hf : Shrink f) {c : Char} {rest rep after : List Char}
    (h : f (c :: rest) = some (rep, after)) :
    replaceScan f (c :: rest) = rep ++ replaceScan f after := by
  simp only [replaceScan, List.length_cons, replaceScanF, h]
  have hlt : after.length < rest.length + 1 := hf _ _ _ h
  rw [replaceScanF_fuel hf rest.length after rest.length (by omega) (by omega)]

/-- Characters of `t` never trigger the matcher. -/
def NoTrig (trig : Char → Bool) (t : List Char) : Prop :=
  ∀ c ∈ t, trig c = false

instance (trig : Char → Bool) (t : List Char) : Decidable (NoTrig trig t) := by
  unfold NoTrig; infer_instance

theorem replaceScan_append_noTrig {f : List Char → Option (List Char × List Char)}
    {trig : Char → Bool} (ht : HeadTrig f trig) :
    ∀ {t b : List Char}, NoTrig trig t →
      replaceScan f (t ++ b) = t ++ replaceScan f b := by
  intro t
  induction t with
  | nil => intro b _; simp
  | cons c rest ih =>
    intro b hnt
    have hc : trig c = false := hnt c (by simp)
    have : f (c :: (rest ++ b)) = none := ht c _ hc
    rw [List.cons_append, replaceScan_cons_none this, ih fun d hd => hnt d (by simp [hd])]
    rfl

theorem replaceScan_id_noTrig {f : List Char → Option (List Char × List Char)}
    {trig : Char → Bool} (ht : HeadTrig f trig) {t : List Char} (hnt : NoTrig trig t) :
    replaceScan f t = t := by
  have h := replaceScan_append_noTrig ht (b := []) hnt
  rw [List.append_nil] at h
  rw [h, replaceScan_nil, List.append_nil]

/-- Head-trigger for tag-shaped matchers: they can only fire on `<`. -/
def isLt (c : Char) : Bool := c == '<'

theorem lowerChar_cases (c : Char) :
    lowerChar c = c ∨ ('a' ≤ lowerChar c ∧ lowerChar c ≤ 'z' ∧ 'A' ≤ c ∧ c ≤ 'Z') := by
  unfold lowerChar
  split <;> simp_all

theorem chEq_lt_iff {c : Char} : chEq true c '<' = true ↔ c = '<' := by
  constructor
  · intro h
    simp only [chEq, if_true, beq_iff_eq] at h
    have hlow : lowerChar '<' = '<' := by decide
    rw [hlow] at h
    rcases lowerChar_cases c with hc | hc
    · rw [hc] at h; exact h
    · exfalso
      rw [h] at hc
      exact absurd hc.1 (by decide)
  · intro h; subst h; rfl

theorem chEq_amp_iff {c : Char} : chEq true c '&' = true ↔ c = '&' := by
  constructor
  · intro h
    simp only [chEq, if_true, beq_iff_eq] at h
    have hlow : lowerChar '&' = '&' := by decide
    rw [hlow] at h
    rcases lowerChar_cases c with hc | hc
    · rw [hc] at h; exact h
    · exfalso
      rw [h] at hc
      exact absurd hc.1 (by decide)
  · intro h; subst h; rfl

theorem tryTag_headTrig {name : List Char} {dotAll : Bool} {mk : List Char → List Char} :
    HeadTrig (tryTag name dotAll mk) isLt := by
  intro c r h
  have hne : c ≠ '<' := by
    intro hc; subst hc; simp [isLt] at h
  simp only [tryTag, dropPrefixG]
  have : chEq true c '<' = false := by
    by_contra hx
    exact hne (chEq_lt_iff.mp (by revert hx; cases chEq true c '<' <;> simp))
  simp [this]

theorem tryLit_headTrig_amp {pat rep : List Char} (hpat : pat = '&' :: pat.tail)
    : HeadTrig (tryLit pat rep) (fun c => c == '&') := by
  intro c r h
  have hne : c ≠ '&' := by simpa using h
  rw [hpat]
  simp only [tryLit, dropPrefixG]
  have : chEq false c '&' = false := by
    simp only [chEq]
    simpa using hne
  simp [this]

/-! ## The remaining regex pass matchers of the converter -/

/-- Split at the first `"`, as `([^"]*)"` does. -/
def splitQuote : List Char → Option (List Char × List Char)
  | [] => none
  | c :: r =>
    if c = '"' then some ([], r)
    else
      match splitQuote r with
      | some (a, b) => some (c :: a, b)
      | none => none

/-- Candidate resumption points for a backtracking `[^>]*lit` prefix: every
suffix obtained by skipping non-`>` characters at which the literal `lit`
matches (case-insensitively), in left-to-right order.  The regex engine's
greedy `[^>]*` tries these right-to-left. -/
def attrCands (lit : List Char) : List Char → List (List Char)
  | [] => []
  | c :: rest =>
    (match dropPrefixG true lit (c :: rest) with
     | some r => [r]
     | none => []) ++
    (if c = '>' then [] else attrCands lit rest)

/-- Try alternatives in order, returning the first success. -/
def firstSome {α β : Type} (f : α → Option β) : List α → Option β
  | [] => none
  | a :: as =>
    match f a with
    | some b => some b
    | none => firstSome f as

/-- One step of `/<a[^>]*href="([^"]*)"[^>]*>(.*?)<\/a>/gi` replaced by
`[$2]($1)` (NotesPanel.tsx line 44). -/
def tryLink (s : List Char) : Option (List Char × List Char) :=
  match dropPrefixG true (lc "<a") s with
  | none => none
  | some r1 =>
    firstSome
      (fun r2 =>
        match splitQuote r2 with
        | none => none
        | some (href, r3) =>
          match consumeToGt r3 with
          | none => none
          | some r4 =>
            match findClose true false (lc "</a>") r4 with
            | none => none
            | some (txt, rest) =>
              some ('[' :: txt ++ (']' :: '(' :: href ++ [')']), rest))
      (attrCands (lc "href=\x22") r1).reverse

/-- One step of the two-capture image rule
`/<img[^>]*src="([^"]*)"[^>]*alt="([^"]*)"[^>]*\/?>/gi` → `![$2]($1)`. -/
def tryImgAlt (s : List Char) : Option (List Char × List Char) :=
  match dropPrefixG true (lc "<img") s with
  | none => none
  | some r1 =>
    firstSome
      (fun r2 =>
        match splitQuote r2 with
        | none => none
        | some (src, r3) =>
          firstSome
            (fun r4 =>
              match splitQuote r4 with
              | none => none
              | some (alt, r5) =>
                match consumeToGt r5 with
                | none => none
                | some r6 =>
                  some ('!' :: '[' :: alt ++ (']' :: '(' :: src ++ [')']), r6))
            (attrCands (lc "alt=\x22") r3).reverse)
      (attrCands (lc "src=\x22") r1).reverse

/-- One step of the one-capture image rule `/<img[^>]*src="([^"]*)"[^>]*\/?>/gi`
→ `![]($1)`. -/
def tryImg (s : List Char) : Option (List Char × List Char) :=
  match dropPrefixG true (lc "<img") s with
  | none => none
  | some r1 =>
    firstSome
      (fun r2 =>
        match splitQuote r2 with
        | none => none
        | some (src, r3) =>
          match consumeToGt r3 with
          | none => none
          | some r4 => some ('!' :: '[' :: ']' :: '(' :: src ++ [')'], r4))
      (attrCands (lc "src=\x22") r1).reverse

/-- Does the literal occur (case-insensitively) anywhere in `s`? -/
def containsCI (lit : List Char) : List Char → Bool
  | [] => isPrefixG true lit []
  | c :: rest => isPrefixG true lit (c :: rest) || containsCI lit rest

/-- Split `[^>]*>`: the run of non-`>` characters and the remainder after `>`. -/
def splitGt : List Char → Option (List Char × List Char)
  | [] => none
  | c :: r =>
    if c = '>' then some ([], r)
    else
      match splitGt r with
      | some (a, b) => some (c :: a, b)
      | none => none

/-- One step of `/<li[^>]*data-checked="…"[^>]*>([\s\S]*?)<\/li>/gi`: an `li`
open tag whose attribute run contains the given literal. -/
def tryTagAttr (name attr : List Char) (mk : List Char → List Char)
    (s : List Char) : Option (List Char × List Char) :=
  match dropPrefixG true ('<' :: name) s with
  | none => none
  | some r1 =>
    match splitGt r1 with
    | none => none
    | some (run, r2) =>
      if containsCI attr run then
        match findClose true true ('<' :: '/' :: (name ++ ['>'])) r2 with
        | none => none
        | some (cap, rest) => some (mk cap, rest)
      else none

/-- One step of an open-tag-only rule such as `/<hr[^>]*\/?>/gi` or
`/<br[^>]*\/?>/gi`. -/
def tryOpenTag (name rep : List Char) (s : List Char) : Option (List Char × List Char) :=
  match dropPrefixG true ('<' :: name) s with
  | none => none
  | some r1 =>
    match consumeToGt r1 with
    | none => none
    | some r2 => some (rep, r2)

/-- One step of `/<pre[^>]*><code[^>]*>([\s\S]*?)<\/code><\/pre>/gi`. -/
def tryPre (s : List Char) : Option (List Char × List Char) :=
  match dropPrefixG true (lc "<pre") s with
  | none => none
  | some r1 =>
    match consumeToGt r1 with
    | none => none
    | some r2 =>
      match dropPrefixG true (lc "<code") r2 with
      | none => none
      | some r3 =>
        match consumeToGt r3 with
        | none => none
        | some r4 =>
          match findClose true true (lc "</code></pre>") r4 with
          | none => none
          | some (cap, rest) =>
            some (lc "```\n" ++ cap ++ lc "\n```\n\n", rest)

/-- One step of the generic tag-stripping rule `/<[^>]+>/g`. -/
def tryStripTag (s : List Char) : Option (List Char × List Char) :=
  match s with
  | [] => none
  | c :: r =>
    if c = '<' then
      match r with
      | [] => none
      | c2 :: r2 =>
        if c2 = '>' then none
        else
          match consumeToGt (c2 :: r2) with
          | none => none
          | some rest => some ([], rest)
    else none

/-- Length of the leading newline run. -/
def countNl : List Char → Nat
  | [] => 0
  | c :: r => if c = '\n' then countNl r + 1 else 0

/-- One step of `/\n{3,}/g` → `"\n\n"`. -/
def tryCollapse (s : List Char) : Option (List Char × List Char) :=
  if 3 ≤ countNl s then some (['\n', '\n'], s.drop (countNl s)) else none

/-- `content.split('\n')` on the character-list model. -/
def splitNl : List Char → List (List Char)
  | [] => [[]]
  | c :: r =>
    if c = '\n' then [] :: splitNl r
    else
      match splitNl r with
      | h :: t2 => (c :: h) :: t2
      | [] => [[c]]

/-- `lines.join('\n')` on the character-list model. -/
def joinNl : List (List Char) → List Char
  | [] => []
  | [l] => l
  | l :: ls => l ++ '\n' :: joinNl ls

/-- Decimal digits of a counter value, as produced by the template literal in
the ordered-list rule. -/
def natToCharsF : Nat → Nat → List Char
  | 0, _ => []
  | fuel + 1, n =>
    if n < 10 then [Char.ofNat (48 + n)]
    else natToCharsF fuel (n / 10) ++ [Char.ofNat (48 + n % 10)]

def natToChars (n : Nat) : List Char := natToCharsF (n + 1) n

/-- The inner `content.replace(/<li[^>]*>([\s\S]*?)<\/li>/gi, …)` of the
ordered-list rule (NotesPanel.tsx lines 54–60).  The replacement callback
ignores its arguments and returns the template literal ``${index}. $1\n`` —
`$1` appears literally in the output because the replacement is a function,
not a pattern string.  This is the observed ordered-list defect. -/
def olScanF : Nat → Nat → List Char → List Char
  | _, _, [] => []
  | 0, _, s => s
  | n + 1, idx, c :: rest =>
    match tryTag (lc "li") true (fun cap => cap) (c :: rest) with
    | some (_, after) =>
      (natToChars (idx + 1) ++ ('.' :: ' ' :: '$' :: '1' :: ['\n'])) ++ olScanF n (idx + 1) after
    | none => c :: olScanF n idx rest

/-- The `<ul>` rule's callback: rewrite each contained `<li>` to `- $1\n`
(with real capture substitution) and append a newline. -/
def mkUl (content : List Char) : List Char :=
  replaceScan (tryTag (lc "li") true (fun cap => '-' :: ' ' :: cap ++ ['\n'])) content ++ ['\n']

/-- The `<ol>` rule's callback (see `olScanF`). -/
def mkOl (content : List Char) : List Char :=
  olScanF content.length 0 content ++ ['\n']

/-- The `<blockquote>` rule's callback: prefix each line with `> `. -/
def mkBq (content : List Char) : List Char :=
  joinNl ((splitNl content).map (fun l => '>' :: ' ' :: l)) ++ ['\n', '\n']

/-! ## Anchored replacements and trimming -/

/-- `dropWhile` over JavaScript whitespace. -/
def dropJsSpace : List Char → List Char
  | [] => []
  | c :: r => if isJsSpace c then dropJsSpace r else c :: r

/-- `replace(/^#{1,3}\s*/, '')`: strip one to three leading `#` and following
whitespace (TiptapEditor.tsx line 390). -/
def stripHeading (s : List Char) : List Char :=
  match s with
  | [] => []
  | c1 :: r1 =>
    if c1 = '#' then
      match r1 with
      | [] => []
      | c2 :: r2 =>
        if c2 = '#' then
          match r2 with
          | [] => []
          | c3 :: r3 => if c3 = '#' then dropJsSpace r3 else dropJsSpace r2
        else dropJsSpace r1
    else s

/-- `replace(/^-\s*/, '')`: strip a leading `-` and following whitespace
(TiptapEditor.tsx line 394). -/
def stripDash (s : List Char) : List Char :=
  match s with
  | [] => []
  | c :: r => if c = '-' then dropJsSpace r else c :: r

/-- `String.prototype.trim`. -/
def jsTrim (s : List Char) : List Char :=
  ((dropJsSpace s).reverse.dropWhile isJsSpace).reverse

/-! ## The converters themselves -/

/-- A single global tag rewrite such as `md.replace(/<h1[^>]*>(.*?)<\/h1>/gi, …)`. -/
def tagPass (name : List Char) (dotAll : Bool) (mk : List Char → List Char)
    (s : List Char) : List Char :=
  replaceScan (tryTag name dotAll mk) s

/-- A single global literal rewrite such as `md.replace(/&amp;/g, '&')`. -/
def litPass (pat rep : List Char) (s : List Char) : List Char :=
  replaceScan (tryLit pat rep) s

/-- The structural rewrites of `htmlToMarkdown` (NotesPanel.tsx lines 24–76,
identically HelpPanel.tsx lines 154–206), in source order: headings, bold,
italic, strikethrough, code, fenced code, links, images, lists, task lists,
blockquotes, horizontal rules, paragraphs and line breaks. -/
def structuralRewrites (html : List Char) : List Char :=
  let md := html
  let md := tagPass (lc "h1") false (fun c => lc "# " ++ c ++ lc "\n\n") md
  let md := tagPass (lc "h2") false (fun c => lc "## " ++ c ++ lc "\n\n") md
  let md := tagPass (lc "h3") false (fun c => lc "### " ++ c ++ lc "\n\n") md
  let md := tagPass (lc "strong") false (fun c => lc "**" ++ c ++ lc "**") md
  let md := tagPass (lc "b") false (fun c => lc "**" ++ c ++ lc "**") md
  let md := tagPass (lc "em") false (fun c => lc "*" ++ c ++ lc "*") md
  let md := tagPass (lc "i") false (fun c => lc "*" ++ c ++ lc "*") md
  let md := tagPass (lc "s") false (fun c => lc "~~" ++ c ++ lc "~~") md
  let md := tagPass (lc "strike") false (fun c => lc "~~" ++ c ++ lc "~~") md
  let md := tagPass (lc "code") false (fun c => lc "`" ++ c ++ lc "`") md
  let md := replaceScan tryPre md
  let md := replaceScan tryLink md
  let md := replaceScan tryImgAlt md
  let md := replaceScan tryImg md
  let md := tagPass (lc "ul") true mkUl md
  let md := tagPass (lc "ol") true mkOl md
  let md := replaceScan (tryTagAttr (lc "li") (lc "data-checked=\x22true\x22")
    (fun c => lc "[x] " ++ c ++ lc "\n")) md
  let md := replaceScan (tryTagAttr (lc "li") (lc "data-checked=\x22false\x22")
    (fun c => lc "[ ] " ++ c ++ lc "\n")) md
  let md := tagPass (lc "blockquote") true mkBq md
  let md := replaceScan (tryOpenTag (lc "hr") (lc "\n---\n\n")) md
  let md := tagPass (lc "p") true (fun c => c ++ lc "\n\n") md
  let md := replaceScan (tryOpenTag (lc "br") (lc "\n")) md
  md

/-- The cleanup phase of `htmlToMarkdown` (NotesPanel.tsx lines 78–90): strip
remaining tags, decode the five entities, collapse 3+ newlines to 2, trim. -/
def cleanupPhase (md : List Char) : List Char :=
  let md := replaceScan tryStripTag md
  let md := litPass (lc "&nbsp;") (lc " ") md
  let md := litPass (lc "&amp;") (lc "&") md
  let md := litPass (lc "&lt;") (lc "<") md
  let md := litPass (lc "&gt;") (lc ">") md
  let md := litPass (lc "&quot;") (lc "\x22") md
  let md := replaceScan tryCollapse md
  jsTrim md

/-- `htmlToMarkdown` (NotesPanel.tsx lines 21–93 / HelpPanel.tsx 151–223). -/
def htmlToMarkdown (html : List Char) : List Char :=
  cleanupPhase (structuralRewrites html)

/-- `htmlToMarkdownPreview` (TiptapEditor.tsx lines 63–87): the per-element
Markdown preview used by the overlay editor. -/
def htmlToMarkdownPreview (html : List Char) : List Char :=
  let md := html
  let md := tagPass (lc "h1") false (fun c => lc "# " ++ c) md
  let md := tagPass (lc "h2") false (fun c => lc "## " ++ c) md
  let md := tagPass (lc "h3") false (fun c => lc "### " ++ c) md
  let md := tagPass (lc "strong") false (fun c => lc "**" ++ c ++ lc "**") md
  let md := tagPass (lc "b") false (fun c => lc "**" ++ c ++ lc "**") md
  let md := tagPass (lc "em") false (fun c => lc "*" ++ c ++ lc "*") md
  let md := tagPass (lc "i") false (fun c => lc "*" ++ c ++ lc "*") md
  let md := tagPass (lc "code") false (fun c => lc "`" ++ c ++ lc "`") md
  let md := tagPass (lc "li") false (fun c => lc "- " ++ c) md
  let md := replaceScan tryStripTag md
  let md := litPass (lc "&nbsp;") (lc " ") md
  let md := litPass (lc "&amp;") (lc "&") md
  let md := litPass (lc "&lt;") (lc "<") md
  let md := litPass (lc "&gt;") (lc ">") md
  jsTrim md

/-- One step of `/\*\*(.*?)\*\*/g` → `$1` (and similarly for `*` and `` ` ``):
a case-sensitive symmetric-delimiter removal. -/
def tryWrapCS (d : List Char) (s : List Char) : Option (List Char × List Char) :=
  match dropPrefixG false d s with
  | none => none
  | some r1 =>
    match findClose false false d r1 with
    | none => none
    | some (cap, rest) => some (cap, rest)

/-- The delimiter-removal chain of `applyEdit` (TiptapEditor.tsx lines 389–394):
strip heading markers, bold, italic, code, and a list marker, in that order. -/
def stripMarkers (v : List Char) : List Char :=
  let v := stripHeading v
  let v := replaceScan (tryWrapCS (lc "**")) v
  let v := replaceScan (tryWrapCS (lc "*")) v
  let v := replaceScan (tryWrapCS (lc "`")) v
  stripDash v

/-! ## DOM model for the overlay editor

The rich-text document is modelled as a forest of element/text nodes.  The
overlay editor (TiptapEditor.tsx lines 98–435) holds a reference to a clicked
element; we model the reference as a path into the forest, and
`target.isConnected` as that path still resolving to a node. -/

mutual
inductive DomNode : Type
  | text (s : List Char) : DomNode
  | elem (tag : List Char) (children : DomForest) : DomNode
inductive DomForest : Type
  | nil : DomForest
  | cons (n : DomNode) (rest : DomForest) : DomForest
end

mutual
def domNodeDecEq : (a b : DomNode) → Decidable (a = b)
  | .text s, .text t =>
    match decEq s t with
    | isTrue h => isTrue (by rw [h])
    | isFalse h => isFalse fun hh => h (by injection hh)
  | .text _, .elem _ _ => isFalse fun hh => DomNode.noConfusion hh
  | .elem _ _, .text _ => isFalse fun hh => DomNode.noConfusion hh
  | .elem t1 c1, .elem t2 c2 =>
    match decEq t1 t2, domForestDecEq c1 c2 with
    | isTrue h1, isTrue h2 => isTrue (by rw [h1, h2])
    | isFalse h1, _ => isFalse fun hh => h1 (by injection hh)
    | isTrue _, isFalse h2 => isFalse fun hh => h2 (by injection hh)
def domForestDecEq : (a b : DomForest) → Decidable (a = b)
  | .nil, .nil => isTrue rfl
  | .nil, .cons _ _ => isFalse fun hh => DomForest.noConfusion hh
  | .cons _ _, .nil => isFalse fun hh => DomForest.noConfusion hh
  | .cons n1 r1, .cons n2 r2 =>
    match domNodeDecEq n1 n2, domForestDecEq r1 r2 with
    | isTrue h1, isTrue h2 => isTrue (by rw [h1, h2])
    | isFalse h1, _ => isFalse fun hh => h1 (by injection hh)
    | isTrue _, isFalse h2 => isFalse fun hh => h2 (by injection hh)
end

instance : DecidableEq DomNode := domNodeDecEq

instance : DecidableEq DomForest := domForestDecEq

/-- HTML serialisation of a text node's data (`&`, `<`, `>` escaped). -/
def escapeHtml : List Char → List Char
  | [] => []
  | c :: r =>
    (if c = '&' then lc "&amp;"
     else if c = '<' then lc "&lt;"
     else if c = '>' then lc "&gt;"
     else [c]) ++ escapeHtml r

mutual
/-- `outerHTML` of a node. -/
def serializeNode : DomNode → List Char
  | .text s => escapeHtml s
  | .elem tag cs => '<' :: tag ++ ['>'] ++ serializeForest cs ++ ('<' :: '/' :: tag ++ ['>'])
/-- Serialisation of a forest of siblings. -/
def serializeForest : DomForest → List Char
  | .nil => []
  | .cons n rest => serializeNode n ++ serializeForest rest
end

mutual
/-- `textContent` of a node. -/
def textContentNode : DomNode → List Char
  | .text s => s
  | .elem _ cs => textContentForest cs
def textContentForest : DomForest → List Char
  | .nil => []
  | .cons n rest => textContentNode n ++ textContentForest rest
end

/-- Index into a forest. -/
def forestGet : DomForest → Nat → Option DomNode
  | .nil, _ => none
  | .cons n _, 0 => some n
  | .cons _ rest, i + 1 => forestGet rest i

/-- Resolve a path to a node; `none` models a detached reference
(`target.isConnected === false`). -/
def getNode (doc : DomForest) : List Nat → Option DomNode
  | [] => none
  | [i] => forestGet doc i
  | i :: p =>
    match forestGet doc i with
    | some (.elem _ cs) => getNode cs p
    | _ => none

mutual
/-- `target.textContent = s` on the node at the given path: replaces the
element's children by a single text node. -/
def setNodeTextF : DomForest → List Nat → List Char → DomForest
  | .nil, _, _ => .nil
  | f, [], _ => f
  | .cons n rest, 0 :: p, s => .cons (setNodeTextN n p s) rest
  | .cons n rest, (i + 1) :: p, s => .cons n (setNodeTextF rest (i :: p) s)
def setNodeTextN : DomNode → List Nat → List Char → DomNode
  | .text _, [], s => .text s
  | .elem t _, [], s => .elem t (.cons (.text s) .nil)
  | .elem t cs, p, s => .elem t (setNodeTextF cs p s)
  | .text d, _ :: _, _ => .text d
end

/-- The tags accepted by the overlay's click handler
(TiptapEditor.tsx line 355). -/
def qualifyingTags : List (List Char) :=
  [lc "h1", lc "h2", lc "h3", lc "strong", lc "em", lc "code", lc "li", lc "b", lc "i", lc "p"]

/-- The transient overlay editing state (TiptapEditor.tsx lines 98–103). -/
structure EditingElement where
  path : List Nat
  tagName : List Char
  markdown : List Char
  originalText : List Char
deriving DecidableEq

/-- The part of the component state the overlay editor manipulates.  `saves`
records the contents passed to `updateNote` (persistence writes). -/
structure EditorState where
  doc : DomForest
  editing : Option EditingElement
  editValue : List Char
  saves : List (List Char)
deriving DecidableEq

/-- `handleEditorClick` (TiptapEditor.tsx lines 347–378): ignore the click if
an edit is in progress; otherwise, for a qualifying element with a non-empty
Markdown preview, enter the Editing state. -/
def handleEditorClick (st : EditorState) (clickPath : List Nat) : EditorState :=
  if st.editing.isSome then st
  else
    match getNode st.doc clickPath with
    | some (.elem tag cs) =>
      if tag ∈ qualifyingTags then
        let markdown := htmlToMarkdownPreview (serializeNode (.elem tag cs))
        if 0 < markdown.length then
          { st with
            editing := some ⟨clickPath, tag, markdown, textContentForest cs⟩,
            editValue := markdown }
        else st
      else st
    | _ => st

/-- `applyEdit` (TiptapEditor.tsx lines 381–409): strip the Markdown delimiters
from the edit buffer; if the target is still connected, overwrite its text
content and persist the re-serialised document; in every case leave the
Editing state. -/
def applyEdit (st : EditorState) : EditorState :=
  match st.editing with
  | none => st
  | some ed =>
    let newText := stripMarkers st.editValue
    let st1 :=
      match getNode st.doc ed.path with
      | some _ =>
        let doc1 := setNodeTextF st.doc ed.path newText
        { st with doc := doc1, saves := st.saves ++ [serializeForest doc1] }
      | none => st
    { st1 with editing := none, editValue := [] }

/-! ## Notes model (`@/lib/notes` and `handleDeleteNote`) -/

/-- A persisted note (src/unnamed/part_001, `interface Note`). -/
structure Note where
  id : Nat
  content : List Char
  createdAt : Nat
  updatedAt : Nat
deriving DecidableEq

/-- `createNote` (src/unnamed/part_001 lines 71–78): a fresh note with empty
content; the random id and the clock are passed in explicitly. -/
def createNote (freshId now : Nat) : Note :=
  { id := freshId, content := [], createdAt := now, updatedAt := now }

/-- The notes-related component state. -/
structure NotesState where
  notes : List Note
  activeNoteId : Option Nat
deriving DecidableEq

/-- `handleDeleteNote` (TiptapEditor.tsx lines 161–180): filter the note out;
if it was the active one, activate the first remaining note, or create and
activate a fresh note when none remain. -/
def handleDeleteNote (st : NotesState) (id freshId now : Nat) : NotesState :=
  let updated := st.notes.filter (fun n => n.id ≠ id)
  if st.activeNoteId = some id then
    match updated with
    | first :: _ => { notes := updated, activeNoteId := some first.id }
    | [] =>
      let newNote := createNote freshId now
      { notes := [newNote], activeNoteId := some newNote.id }
  else
    { notes := updated, activeNoteId := st.activeNoteId }

/-! ## URL state codec

The codec itself is not among the provided source files (only the
specification §4.2 describes it), so it is modelled from the spec:
UTF-8 encode, raw-deflate compress (stored blocks are used, a valid
raw-deflate-family stream with no container framing), base64, then the
URL-safe substitution `+`→`-`, `/`→`_` and stripping of `=` padding;
decoding reverses each step and fails on malformed input. -/

/-- A Unicode scalar value, as carried by a valid UTF-8 string. -/
def ValidCp (n : Nat) : Prop := n < 0x110000 ∧ (n < 0xD800 ∨ 0xE000 ≤ n)

instance (n : Nat) : Decidable (ValidCp n) := by unfold ValidCp; infer_instance

/-- Modelled from the spec: UTF-8 encoding of one scalar value. -/
def utf8EncodeCp (c : Nat) : List Nat :=
  if c < 0x80 then [c]
  else if c < 0x800 then [0xC0 + c / 64, 0x80 + c % 64]
  else if c < 0x10000 then [0xE0 + c / 4096, 0x80 + (c / 64) % 64, 0x80 + c % 64]
  else [0xF0 + c / 262144, 0x80 + (c / 4096) % 64, 0x80 + (c / 64) % 64, 0x80 + c % 64]

/-- Modelled from the spec: UTF-8 encoding of a string (list of scalar values). -/
def utf8Encode : List Nat → List Nat
  | [] => []
  | c :: r => utf8EncodeCp c ++ utf8Encode r

/-- Is `b` a UTF-8 continuation byte? -/
def isCont (b : Nat) : Bool := decide (0x80 ≤ b) && decide (b < 0xC0)

/-- Modelled from the spec: fuelled UTF-8 decoder; `none` on malformed input. -/
def utf8DecodeF : Nat → List Nat → Option (List Nat)
  | _, [] => some []
  | 0, _ :: _ => none
  | f + 1, b :: rest =>
    if b < 0x80 then (utf8DecodeF f rest).map (b :: ·)
    else if b < 0xC0 then none
    else if b < 0xE0 then
      match rest with
      | b1 :: r =>
        if isCont b1 then (utf8DecodeF f r).map (((b - 0xC0) * 64 + (b1 - 0x80)) :: ·)
        else none
      | [] => none
    else if b < 0xF0 then
      match rest with
      | b1 :: b2 :: r =>
        if isCont b1 && isCont b2 then
          (utf8DecodeF f r).map
            (((b - 0xE0) * 4096 + (b1 - 0x80) * 64 + (b2 - 0x80)) :: ·)
        else none
      | _ => none
    else if b < 0xF8 then
      match rest with
      | b1 :: b2 :: b3 :: r =>
        if isCont b1 && isCont b2 && isCont b3 then
          (utf8DecodeF f r).map
            (((b - 0xF0) * 262144 + (b1 - 0x80) * 4096 + (b2 - 0x80) * 64 + (b3 - 0x80)) :: ·)
        else none
      | _ => none
    else none

def utf8Decode (bs : List Nat) : Option (List Nat) := utf8DecodeF bs.length bs

/-- Two-byte little-endian encoding of a length (≤ 0xFFFF). -/
def toLE2 (n : Nat) : List Nat := [n % 256, n / 256]

/-- Modelled from the spec: one stored block of a raw deflate stream.  With
`BTYPE = 00` the three header bits (BFINAL, BTYPE) padded to a byte boundary
make the first byte `0x00`/`0x01`, followed by `LEN`, `NLEN` (one's
complement) and the literal data. -/
def mkStored (final : Bool) (dat : List Nat) : List Nat :=
  (if final then 1 else 0) :: toLE2 dat.length ++ toLE2 (0xFFFF - dat.length) ++ dat

/-- Modelled from the spec: raw-deflate compression using stored blocks of at
most 65535 bytes. -/
def deflateRawF : Nat → List Nat → List Nat
  | 0, bs => mkStored true bs
  | f + 1, bs =>
    if bs.length ≤ 65535 then mkStored true bs
    else mkStored false (bs.take 65535) ++ deflateRawF f (bs.drop 65535)

def deflateRaw (bs : List Nat) : List Nat := deflateRawF bs.length bs

/-- Modelled from the spec: raw-deflate decompression of a stored-block
stream; `none` on malformed input (bad header, bad NLEN, truncation, or
trailing garbage after the final block). -/
def inflateRawF : Nat → List Nat → Option (List Nat)
  | _, [] => none
  | 0, _ :: _ => none
  | f + 1, hb :: rest =>
    if hb = 0 ∨ hb = 1 then
      match rest with
      | l0 :: l1 :: n0 :: n1 :: r =>
        let len := l0 + 256 * l1
        if n0 + 256 * n1 = 0xFFFF - len ∧ len ≤ r.length then
          let dat := r.take len
          let r2 := r.drop len
          if hb = 1 then (if r2 = [] then some dat else none)
          else (inflateRawF f r2).map (dat ++ ·)
        else none
      | _ => none
    else none

def inflateRaw (bs : List Nat) : Option (List Nat) := inflateRawF bs.length bs

/-- The 64 base64 alphabet characters. -/
def b64Char (n : Nat) : Char :=
  if n < 26 then Char.ofNat (65 + n)
  else if n < 52 then Char.ofNat (97 + (n - 26))
  else if n < 62 then Char.ofNat (48 + (n - 52))
  else if n = 62 then '+'
  else '/'

/-- Inverse of `b64Char`; `none` for characters outside the alphabet. -/
def b64Val (c : Char) : Option Nat :=
  if 'A' ≤ c ∧ c ≤ 'Z' then some (c.toNat - 65)
  else if 'a' ≤ c ∧ c ≤ 'z' then some (c.toNat - 97 + 26)
  else if '0' ≤ c ∧ c ≤ '9' then some (c.toNat - 48 + 52)
  else if c = '+' then some 62
  else if c = '/' then some 63
  else none

/-- Modelled from the spec: standard base64 encoding with `=` padding. -/
def b64EncodeCore : List Nat → List Char
  | [] => []
  | [a] => [b64Char (a / 4), b64Char (a % 4 * 16), '=', '=']
  | [a, b] => [b64Char (a / 4), b64Char (a % 4 * 16 + b / 16), b64Char (b % 16 * 4), '=']
  | a :: b :: c :: r =>
    b64Char (a / 4) :: b64Char (a % 4 * 16 + b / 16) ::
      b64Char (b % 16 * 4 + c / 64) :: b64Char (c % 64) :: b64EncodeCore r

/-- Modelled from the spec: standard base64 decoding; `none` on malformed
input (wrong length, bad characters, or interior padding). -/
def b64DecodeCore : List Char → Option (List Nat)
  | [] => some []
  | c1 :: c2 :: c3 :: c4 :: r =>
    (match b64Val c1, b64Val c2 with
     | some v1, some v2 =>
       if c3 = '=' then
         if c4 = '=' ∧ r = [] then some [v1 * 4 + v2 / 16] else none
       else
         match b64Val c3 with
         | some v3 =>
           if c4 = '=' then
             if r = [] then some [v1 * 4 + v2 / 16, v2 % 16 * 16 + v3 / 4] else none
           else
             match b64Val c4 with
             | some v4 =>
               (b64DecodeCore r).map
                 (fun bs => (v1 * 4 + v2 / 16) :: (v2 % 16 * 16 + v3 / 4) :: (v3 % 4 * 64 + v4) :: bs)
             | none => none
         | none => none
     | _, _ => none)
  | _ => none

/-- The URL-safe substitution applied after base64 encoding. -/
def swapOut (c : Char) : Char := if c = '+' then '-' else if c = '/' then '_' else c

/-- The inverse substitution applied before base64 decoding. -/
def swapIn (c : Char) : Char := if c = '-' then '+' else if c = '_' then '/' else c

/-- Strip trailing `=` padding. -/
def stripPad (l : List Char) : List Char := (l.reverse.dropWhile (· == '=')).reverse

/-- Restore `=` padding until the length is a multiple of 4. -/
def restorePad (l : List Char) : List Char :=
  l ++ List.replicate ((4 - l.length % 4) % 4) '='

/-- Modelled from the spec: `encode` of the URL state codec — UTF-8 bytes,
raw-deflate, base64, URL-safe substitution, padding stripped. -/
def urlEncode (cps : List Nat) : List Char :=
  stripPad ((b64EncodeCore (deflateRaw (utf8Encode cps))).map swapOut)

/-- Modelled from the spec: `decode` of the URL state codec — restore padding,
undo the substitution, base64-decode, inflate, UTF-8 decode; any stage may
fail with a decode error (`none`). -/
def urlDecode (tok : List Char) : Option (List Nat) :=
  match b64DecodeCore ((restorePad tok).map swapIn) with
  | none => none
  | some bs =>
    match inflateRaw bs with
    | none => none
    | some data => utf8Decode data

/-! ## Claim C1: ordered-list item text -/

/-- C1.  The claim states that `htmlToMarkdown` turns each `<li>` of an `<ol>`
into an incrementing `N. ` prefix followed by that item's own text.  The code
(NotesPanel.tsx lines 54–60) instead emits the literal characters `$1` in
place of the item text, because the replacement callback returns the template
literal ``${index}. $1\n`` in which `$1` is plain text: on the ordered list
`<ol><li>item one</li><li>item two</li></ol>` the converter produces
`1. $1\n2. $1`, discarding both items' text.  This contradicts the claimed
(and spec-intended, §9 "Open question") behaviour, exhibiting the code bug. -/
theorem C1_ol_item_text_lost :
    htmlToMarkdown (lc "<ol><li>item one</li><li>item two</li></ol>")
      = lc "1. $1\n2. $1" := by decide

/-! ## Claim C3: Markdown→HTML→Markdown scenario -/

/-- Modelled from the spec: the Markdown→HTML conversion is delegated to an
external Markdown parser that is not among the source files; this is the HTML
serialisation it produces for the scenario input
`"# Title\n\nSome **bold** and *italic* text.\n\n- item one\n- item two"` —
one `<h1>`, one `<strong>`, one `<em>`, and an unordered list with two `<li>`
items, exactly as the spec's scenario describes. -/
def scenarioHtml : List Char :=
  lc "<h1>Title</h1><p>Some <strong>bold</strong> and <em>italic</em> text.</p><ul><li>item one</li><li>item two</li></ul>"

/-- C3.  Converting the scenario HTML back to Markdown reproduces a single
`#`-prefixed heading line, `**bold**`, `*italic*`, and two `-`-prefixed list
lines. -/
theorem C3_roundtrip_scenario :
    htmlToMarkdown scenarioHtml
      = lc "# Title\n\nSome **bold** and *italic* text.\n\n- item one\n- item two" := by
  decide

/-! ## Claim C6: editing a heading through the overlay -/

/-- The document containing the rendered `<h2>Section</h2>`. -/
def c6Doc : DomForest :=
  .cons (.elem (lc "h2") (.cons (.text (lc "Section")) .nil)) .nil

/-- C6.  Clicking the rendered `<h2>Section</h2>` opens the overlay pre-filled
with `## Section`; editing the value to `## New Title` and committing (Enter)
updates the document so the heading text is `New Title` while the element
remains an `<h2>`. -/
theorem C6_heading_edit_scenario :
    (handleEditorClick ⟨c6Doc, none, [], []⟩ [0]).editValue = lc "## Section" ∧
    (handleEditorClick ⟨c6Doc, none, [], []⟩ [0]).editing.isSome = true ∧
    (applyEdit { handleEditorClick ⟨c6Doc, none, [], []⟩ [0] with
        editValue := lc "## New Title" }).doc
      = .cons (.elem (lc "h2") (.cons (.text (lc "New Title")) .nil)) .nil ∧
    (applyEdit { handleEditorClick ⟨c6Doc, none, [], []⟩ [0] with
        editValue := lc "## New Title" }).editing = none := by
  decide

/-! ## Claim C7: at most one element in Editing state -/

/-- C7.  The Editing state is an `Option`, so at most one element is being
edited at any time; and while an edit is in progress, any further click is
ignored by `handleEditorClick` (TiptapEditor.tsx line 349 returns early),
leaving the state unchanged until the edit is committed or cancelled. -/
theorem C7_click_ignored_while_editing (st : EditorState) (p : List Nat)
    (h : st.editing.isSome = true) : handleEditorClick st p = st := by
  unfold handleEditorClick
  simp [h]

/-- Witness for C7 at a concrete editing state. -/
theorem C7_click_ignored_while_editing_witness :
    (⟨c6Doc, some ⟨[0], lc "h2", lc "## Section", lc "Section"⟩, lc "## Section", []⟩ :
        EditorState).editing.isSome = true ∧
    handleEditorClick
        ⟨c6Doc, some ⟨[0], lc "h2", lc "## Section", lc "Section"⟩, lc "## Section", []⟩ [0]
      = ⟨c6Doc, some ⟨[0], lc "h2", lc "## Section", lc "Section"⟩, lc "## Section", []⟩ :=
  ⟨by decide, C7_click_ignored_while_editing _ [0] (by decide)⟩

/-! ## Claim C8: committing onto a detached target -/

/-- C8.  If the overlay's target node is no longer attached (its reference no
longer resolves in the document), `applyEdit` skips the DOM mutation and the
persistence write — the document and the saved-content log are unchanged —
but still resets the editing state and the edit buffer; being a total
function, it raises no exception. -/
theorem C8_commit_detached_target (st : EditorState) (ed : EditingElement)
    (hed : st.editing = some ed) (hdet : getNode st.doc ed.path = none) :
    applyEdit st = { st with editing := none, editValue := [] } := by
  unfold applyEdit
  rw [hed]
  simp [hdet]

/-- A concrete overlay state whose target reference is detached. -/
def c8Editing : EditingElement := ⟨[0], lc "h2", lc "## Section", lc "Section"⟩

/-- A concrete overlay state whose target reference is detached. -/
def c8St : EditorState := ⟨.nil, some c8Editing, lc "## x", []⟩

/-- Witness for C8: a state whose target path resolves nowhere. -/
theorem C8_commit_detached_target_witness :
    c8St.editing = some c8Editing ∧
    getNode c8St.doc c8Editing.path = none ∧
    applyEdit c8St = { c8St with editing := none, editValue := [] } :=
  ⟨rfl, rfl, C8_commit_detached_target c8St c8Editing rfl rfl⟩

/-! ## Claim C10: deletion invariant -/

/-- C10, counterexample to the claim as stated.  The claim quantifies over
*any* notes collection and note id; on the state with a single note (id 5) and
no active note id set, deleting note 5 leaves an empty collection and no
active id — the branch creating a fresh note only runs when the deleted id
equals the active id (TiptapEditor.tsx line 166). -/
theorem C10_delete_empty_counterexample :
    (handleDeleteNote ⟨[⟨5, [], 0, 0⟩], none⟩ 5 9 9).notes = [] ∧
    (handleDeleteNote ⟨[⟨5, [], 0, 0⟩], none⟩ 5 9 9).activeNoteId = none := by
  refine ⟨by decide, by decide⟩

/-- C10, amended: provided an active note id is set and refers to a note in
the collection, after `handleDeleteNote` the collection is non-empty and the
active id refers to a note in it; moreover if the deletion empties the
collection a fresh note is created and activated, and if the active note is
deleted while others remain, the first remaining note becomes active. -/
theorem C10_delete_invariant (st : NotesState) (id freshId now : Nat) (a : Nat)
    (hact : st.activeNoteId = some a) (hmem : a ∈ st.notes.map Note.id) :
    ((handleDeleteNote st id freshId now).notes ≠ [] ∧
      ∃ b, (handleDeleteNote st id freshId now).activeNoteId = some b ∧
        b ∈ (handleDeleteNote st id freshId now).notes.map Note.id) ∧
    (st.notes.filter (fun n => n.id ≠ id) = [] →
      (handleDeleteNote st id freshId now).notes = [createNote freshId now] ∧
      (handleDeleteNote st id freshId now).activeNoteId = some freshId) ∧
    (∀ first rest, a = id → st.notes.filter (fun n => n.id ≠ id) = first :: rest →
      (handleDeleteNote st id freshId now).activeNoteId = some first.id) := by
  obtain ⟨note, hnote, hid⟩ : ∃ n ∈ st.notes, n.id = a := by
    simpa using List.mem_map.mp hmem
  show _ ∧ _ ∧ _
  unfold handleDeleteNote
  by_cases hcase : st.activeNoteId = some id
  · have haid : a = id := by rw [hact] at hcase; injection hcase
    rw [if_pos hcase]
    cases hf : st.notes.filter (fun n => n.id ≠ id) with
    | nil =>
      exact ⟨⟨by simp [createNote], freshId, by simp [createNote]⟩,
        fun _ => ⟨rfl, rfl⟩, fun first rest _ hf2 => absurd hf2 (by simp)⟩
    | cons first rest =>
      refine ⟨⟨by simp, first.id, by simp⟩, fun hf2 => absurd hf2 (by simp),
        fun f2 r2 _ hf2 => ?_⟩
      injection hf2 with h1 _
      simp [h1]
  · have haid : a ≠ id := by
      intro hx
      rw [hact, hx] at hcase
      exact hcase rfl
    have hkeep : note ∈ st.notes.filter (fun n => n.id ≠ id) := by
      rw [List.mem_filter]
      exact ⟨hnote, by simp [hid, haid]⟩
    rw [if_neg hcase]
    refine ⟨⟨?_, a, by simpa using hact, ?_⟩, fun hf2 => ?_,
      fun f2 r2 hx _ => absurd hx haid⟩
    · intro hx
      have hx2 : st.notes.filter (fun n => n.id ≠ id) = [] := hx
      rw [hx2] at hkeep
      simp at hkeep
    · simpa using List.mem_map.mpr ⟨note, hkeep, hid⟩
    · rw [hf2] at hkeep
      simp at hkeep

/-- Witness for the amended C10 at a concrete state: deleting the active note
while another remains. -/
theorem C10_delete_invariant_witness :
    ((⟨[⟨5, [], 0, 0⟩, ⟨7, [], 0, 0⟩], some 5⟩ : NotesState).activeNoteId = some 5) ∧
    (5 ∈ ([⟨5, [], 0, 0⟩, ⟨7, [], 0, 0⟩] : List Note).map Note.id) ∧
    ((handleDeleteNote ⟨[⟨5, [], 0, 0⟩, ⟨7, [], 0, 0⟩], some 5⟩ 5 9 9).notes ≠ [] ∧
      ∃ b, (handleDeleteNote ⟨[⟨5, [], 0, 0⟩, ⟨7, [], 0, 0⟩], some 5⟩ 5 9 9).activeNoteId
            = some b ∧
        b ∈ (handleDeleteNote ⟨[⟨5, [], 0, 0⟩, ⟨7, [], 0, 0⟩], some 5⟩ 5 9 9).notes.map
              Note.id) :=
  ⟨by decide, by decide,
    (C10_delete_invariant ⟨[⟨5, [], 0, 0⟩, ⟨7, [], 0, 0⟩], some 5⟩ 5 9 9 5
      (by decide) (by decide)).1⟩

/-! ## Machinery for the overlay round-trip claims (C4, C5) -/

theorem chEq_refl (ci : Bool) (c : Char) : chEq ci c c = true := by
  cases ci <;> simp [chEq]

theorem dropPrefixG_append_self (ci : Bool) :
    ∀ (p r : List Char), dropPrefixG ci p (p ++ r) = some r := by
  intro p
  induction p with
  | nil => intro r; rfl
  | cons a as ih => intro r; simp [dropPrefixG, chEq_refl, ih]

/-- Characters that are safe inside a capture: they cannot start the closing
literal and (when the dot does not match newlines) are not line terminators. -/
def CaptureSafe (ci dotAll : Bool) (d : Char) (t : List Char) : Prop :=
  ∀ c ∈ t, chEq ci c d = false ∧ (dotAll = true ∨ isLineTerm c = false)

theorem findClose_of_prefix {ci dotAll : Bool} {close s r : List Char}
    (hs : s ≠ []) (h : dropPrefixG ci close s = some r) :
    findClose ci dotAll close s = some ([], r) := by
  cases s with
  | nil => exact absurd rfl hs
  | cons c cs => simp only [findClose, h]

theorem findClose_step {ci dotAll : Bool} {close : List Char} {c : Char} {cs : List Char}
    (hno : dropPrefixG ci close (c :: cs) = none)
    (hlt : (!dotAll && isLineTerm c) = false) :
    findClose ci dotAll close (c :: cs)
      = (findClose ci dotAll close cs).map (fun pr => (c :: pr.1, pr.2)) := by
  simp only [findClose, hno, hlt, Bool.false_eq_true, if_false]
  cases findClose ci dotAll close cs with
  | none => rfl
  | some pr => cases pr; rfl

theorem findClose_fire (ci dotAll : Bool) (d : Char) (ds : List Char) :
    ∀ (t r : List Char), CaptureSafe ci dotAll d t →
      findClose ci dotAll (d :: ds) (t ++ ((d :: ds) ++ r)) = some (t, r) := by
  intro t
  induction t with
  | nil =>
    intro r _
    rw [List.nil_append]
    exact findClose_of_prefix (by simp) (dropPrefixG_append_self ci (d :: ds) r)
  | cons c t' ih =>
    intro r hsafe
    obtain ⟨hne, hlt⟩ := hsafe c (by simp)
    have hin : CaptureSafe ci dotAll d t' := fun x hx => hsafe x (by simp [hx])
    have hno : dropPrefixG ci (d :: ds) ((c :: t') ++ ((d :: ds) ++ r)) = none := by
      simp [dropPrefixG, hne]
    have hcond : (!dotAll && isLineTerm c) = false := by
      rcases hlt with h | h
      · simp [h]
      · simp [h]
    rw [List.cons_append, findClose_step (by simpa using hno) hcond, ih r hin]
    rfl

/-- The serialisation of a single element wrapping plain text. -/
def elemHtml (tag t : List Char) : List Char :=
  '<' :: ((tag ++ ['>']) ++ (t ++ ('<' :: ('/' :: tag ++ ['>']))))

theorem tryTag_eq {name : List Char} {dotAll : Bool} {mk : List Char → List Char}
    {s r1 r2 cap rest : List Char}
    (h1 : dropPrefixG true ('<' :: name) s = some r1)
    (h2 : consumeToGt r1 = some r2)
    (h3 : findClose true dotAll ('<' :: '/' :: (name ++ ['>'])) r2 = some (cap, rest)) :
    tryTag name dotAll mk s = some (mk cap, rest) := by
  simp only [tryTag, h1, h2, h3]

theorem tryTag_fire (name : List Char) (dotAll : Bool) (mk : List Char → List Char)
    (t : List Char) (hsafe : CaptureSafe true dotAll '<' t) :
    tryTag name dotAll mk (elemHtml name t) = some (mk t, []) := by
  have h1 : dropPrefixG true ('<' :: name) (elemHtml name t)
      = some ('>' :: (t ++ ('<' :: ('/' :: name ++ ['>'])))) := by
    show dropPrefixG true ('<' :: name)
      ('<' :: ((name ++ ['>']) ++ (t ++ ('<' :: ('/' :: name ++ ['>']))))) = _
    have hx : (name ++ ['>']) ++ (t ++ ('<' :: ('/' :: name ++ ['>'])))
        = name ++ ('>' :: (t ++ ('<' :: ('/' :: name ++ ['>'])))) := by
      simp
    rw [hx]
    calc dropPrefixG true ('<' :: name)
          ('<' :: (name ++ ('>' :: (t ++ ('<' :: ('/' :: name ++ ['>']))))))
        = dropPrefixG true name (name ++ ('>' :: (t ++ ('<' :: ('/' :: name ++ ['>']))))) := by
          simp [dropPrefixG, chEq_refl]
      _ = some ('>' :: (t ++ ('<' :: ('/' :: name ++ ['>'])))) :=
          dropPrefixG_append_self true name _
  have h2 : consumeToGt ('>' :: (t ++ ('<' :: ('/' :: name ++ ['>']))))
      = some (t ++ ('<' :: ('/' :: name ++ ['>']))) := by
    simp [consumeToGt]
  have h3 : findClose true dotAll ('<' :: '/' :: (name ++ ['>']))
      (t ++ ('<' :: ('/' :: name ++ ['>']))) = some (t, []) := by
    have := findClose_fire true dotAll '<' ('/' :: (name ++ ['>'])) t [] hsafe
    simpa using this
  exact tryTag_eq h1 h2 h3

theorem tagPass_fire (name : List Char) (dotAll : Bool) (mk : List Char → List Char)
    (t : List Char) (hsafe : CaptureSafe true dotAll '<' t) :
    tagPass name dotAll mk (elemHtml name t) = mk t := by
  have hfire := tryTag_fire name dotAll mk t hsafe
  unfold tagPass
  unfold elemHtml at hfire ⊢
  rw [replaceScan_cons_match tryTag_shrink hfire, replaceScan_nil, List.append_nil]

theorem tagPass_wrapped_id (name : List Char) (dotAll : Bool) (mk : List Char → List Char)
    (tag t : List Char)
    (hA : NoTrig isLt (tag ++ ['>'])) (hB : NoTrig isLt ('/' :: tag ++ ['>']))
    (ht : NoTrig isLt t)
    (h1 : tryTag name dotAll mk
      ('<' :: ((tag ++ ['>']) ++ (t ++ ('<' :: ('/' :: tag ++ ['>']))))) = none)
    (h2 : tryTag name dotAll mk ('<' :: ('/' :: tag ++ ['>'])) = none) :
    tagPass name dotAll mk (elemHtml tag t) = elemHtml tag t := by
  unfold tagPass elemHtml
  rw [replaceScan_cons_none h1]
  rw [replaceScan_append_noTrig tryTag_headTrig hA]
  rw [replaceScan_append_noTrig tryTag_headTrig ht]
  rw [replaceScan_cons_none h2]
  rw [replaceScan_id_noTrig tryTag_headTrig hB]

/-! HeadTrig and Shrink facts for the remaining matchers used in the
overlay pipeline. -/

theorem dropPrefixG_lt_none {xs r : List Char} {c : Char} (h : isLt c = false) :
    dropPrefixG true ('<' :: xs) (c :: r) = none := by
  have : chEq true c '<' = false := by
    by_contra hx
    have : chEq true c '<' = true := by revert hx; cases chEq true c '<' <;> simp
    have := chEq_lt_iff.mp this
    subst this
    simp [isLt] at h
  simp [dropPrefixG, this]

theorem tryStripTag_headTrig : HeadTrig tryStripTag isLt := by
  intro c r h
  have : ¬ c = '<' := by
    intro hc; subst hc; simp [isLt] at h
  simp [tryStripTag, this]

theorem tryStripTag_shrink : Shrink tryStripTag := by
  intro s rep a h
  unfold tryStripTag at h
  cases s with
  | nil => simp at h
  | cons c r =>
    by_cases hc : c = '<'
    · simp only [hc, if_true, if_pos rfl] at h
      cases r with
      | nil => simp at h
      | cons c2 r2 =>
        by_cases hc2 : c2 = '>'
        · simp [hc2] at h
        · simp only [hc2, if_false] at h
          cases hg : consumeToGt (c2 :: r2) with
          | none => rw [hg] at h; simp at h
          | some rest =>
            rw [hg] at h
            simp only [Option.some.injEq, Prod.mk.injEq] at h
            obtain ⟨-, hr⟩ := h
            subst hr
            have := consumeToGt_length hg
            simp [List.length_cons] at this ⊢
            omega
    · simp [hc] at h

theorem tryWrapCS_headTrig (d0 : Char) (ds : List Char) :
    HeadTrig (tryWrapCS (d0 :: ds)) (fun c => c == d0) := by
  intro c r h
  have : chEq false c d0 = false := by
    simp only [chEq, if_neg (by simp : ¬ (false = true))]
    exact h
  simp [tryWrapCS, dropPrefixG, this]

theorem tryWrapCS_shrink {d : List Char} (hd : d ≠ []) : Shrink (tryWrapCS d) := by
  intro s rep a h
  unfold tryWrapCS at h
  cases hp : dropPrefixG false d s with
  | none => simp only [hp] at h; exact absurd h (by simp)
  | some r1 =>
    simp only [hp] at h
    cases hf : findClose false false d r1 with
    | none => simp only [hf] at h; exact absurd h (by simp)
    | some pr =>
      obtain ⟨cap, rest⟩ := pr
      simp only [hf, Option.some.injEq, Prod.mk.injEq] at h
      obtain ⟨-, hr⟩ := h
      subst hr
      have e1 := dropPrefixG_length hp
      have e2 := findClose_length hf
      have : d.length ≠ 0 := by simpa using fun hn => hd (List.length_eq_zero.mp hn)
      omega

theorem tryWrapCS_fire (d0 : Char) (ds t r : List Char)
    (hsafe : CaptureSafe false false d0 t) :
    tryWrapCS (d0 :: ds) ((d0 :: ds) ++ (t ++ ((d0 :: ds) ++ r))) = some (t, r) := by
  unfold tryWrapCS
  simp only [dropPrefixG_append_self false (d0 :: ds),
    findClose_fire false false d0 ds t r hsafe]

theorem tryLit_headTrig {pat rep : List Char} {p0 : Char} (hpat : pat = p0 :: pat.tail) :
    HeadTrig (tryLit pat rep) (fun c => c == p0) := by
  intro c r h
  rw [hpat]
  simp only [tryLit, dropPrefixG]
  have : chEq false c p0 = false := by
    simp only [chEq, if_neg (by simp : ¬ (false = true))]
    exact h
  simp [this]

theorem tryLit_headTrig_lt {pat rep : List Char} (hpat : pat = '&' :: pat.tail) :
    HeadTrig (tryLit pat rep) (fun c => c == '&') :=
  tryLit_headTrig hpat

/-! ## Plain text: characters that survive the overlay round trip -/

/-- A character with no Markdown/HTML significance in the overlay pipeline. -/
def goodChar (c : Char) : Bool :=
  !(c == '<' || c == '>' || c == '&' || c == '*' || c == '`') && !isLineTerm c

/-- Plain text for the overlay round trip: non-empty, made of `goodChar`s, not
starting with whitespace, `#` or `-`, not ending with whitespace. -/
def PlainText (t : List Char) : Prop :=
  t ≠ [] ∧ (∀ c ∈ t, goodChar c = true) ∧
  (∀ c, t.head? = some c → isJsSpace c = false ∧ c ≠ '#' ∧ c ≠ '-') ∧
  (∀ c, t.getLast? = some c → isJsSpace c = false)

instance (t : List Char) : Decidable (PlainText t) := by
  unfold PlainText; infer_instance

theorem goodChar_spec {c : Char} (h : goodChar c = true) :
    c ≠ '<' ∧ c ≠ '>' ∧ c ≠ '&' ∧ c ≠ '*' ∧ c ≠ '`' ∧ isLineTerm c = false := by
  simp only [goodChar, Bool.and_eq_true, Bool.not_eq_true'] at h
  obtain ⟨h1, h6⟩ := h
  simp only [Bool.or_eq_false_iff, beq_eq_false_iff_ne, ne_eq] at h1
  obtain ⟨⟨⟨⟨g1, g2⟩, g3⟩, g4⟩, g5⟩ := h1
  exact ⟨g1, g2, g3, g4, g5, h6⟩

theorem goodChar_noLt {t : List Char} (h : ∀ c ∈ t, goodChar c = true) :
    NoTrig isLt t := by
  intro c hc
  have hs := goodChar_spec (h c hc)
  simp [isLt, hs.1]

theorem goodChar_noAmp {t : List Char} (h : ∀ c ∈ t, goodChar c = true) :
    NoTrig (fun c => c == '&') t := by
  intro c hc
  have hs := goodChar_spec (h c hc)
  simp [hs.2.2.1]

theorem goodChar_noStar {t : List Char} (h : ∀ c ∈ t, goodChar c = true) :
    NoTrig (fun c => c == '*') t := by
  intro c hc
  have hs := goodChar_spec (h c hc)
  simp [hs.2.2.2.1]

theorem goodChar_noTick {t : List Char} (h : ∀ c ∈ t, goodChar c = true) :
    NoTrig (fun c => c == '`') t := by
  intro c hc
  have hs := goodChar_spec (h c hc)
  simp [hs.2.2.2.2.1]

theorem goodChar_captureSafe {t : List Char} (dotAll : Bool)
    (h : ∀ c ∈ t, goodChar c = true) : CaptureSafe true dotAll '<' t := by
  intro c hc
  have hs := goodChar_spec (h c hc)
  constructor
  · by_contra hx
    have hx2 : chEq true c '<' = true := by revert hx; cases chEq true c '<' <;> simp
    exact absurd (chEq_lt_iff.mp hx2) hs.1
  · right; exact hs.2.2.2.2.2

theorem goodChar_noLineTerm {t : List Char} (h : ∀ c ∈ t, goodChar c = true) :
    ∀ c ∈ t, isLineTerm c = false :=
  fun c hc => (goodChar_spec (h c hc)).2.2.2.2.2

theorem captureSafeCS_of {t : List Char} {d : Char}
    (hd : ∀ c ∈ t, (c == d) = false)
    (hlt : ∀ c ∈ t, isLineTerm c = false) : CaptureSafe false false d t := by
  intro c hc
  refine ⟨?_, Or.inr (hlt c hc)⟩
  simp only [chEq, if_neg (by simp : ¬ (false = true))]
  exact hd c hc

theorem goodChar_captureSafeCS {t : List Char} (d : Char)
    (hd : (d = '*' ∨ d = '`'))
    (h : ∀ c ∈ t, goodChar c = true) : CaptureSafe false false d t := by
  intro c hc
  have hs := goodChar_spec (h c hc)
  constructor
  · simp only [chEq, if_neg (by simp : ¬ (false = true)), beq_eq_false_iff_ne, ne_eq]
    rcases hd with rfl | rfl
    · exact hs.2.2.2.1
    · exact hs.2.2.2.2.1
  · right; exact hs.2.2.2.2.2

/-! ## Trimming and escaping lemmas -/

theorem dropJsSpace_of_head {t : List Char}
    (h : ∀ c, t.head? = some c → isJsSpace c = false) : dropJsSpace t = t := by
  cases t with
  | nil => rfl
  | cons c r =>
    have := h c rfl
    simp [dropJsSpace, this]

theorem dropWhile_of_head {p : Char → Bool} {t : List Char}
    (h : ∀ c, t.head? = some c → p c = false) : t.dropWhile p = t := by
  cases t with
  | nil => rfl
  | cons c r =>
    have := h c rfl
    simp [List.dropWhile_cons, this]

theorem jsTrim_eq_self {s : List Char}
    (hhead : ∀ c, s.head? = some c → isJsSpace c = false)
    (hlast : ∀ c, s.getLast? = some c → isJsSpace c = false) : jsTrim s = s := by
  unfold jsTrim
  rw [dropJsSpace_of_head hhead]
  rw [dropWhile_of_head (p := isJsSpace) (t := s.reverse) ?hrev]
  · exact List.reverse_reverse s
  · intro c hc
    rw [List.head?_reverse] at hc
    exact hlast c hc

theorem escapeHtml_id {t : List Char} (h : ∀ c ∈ t, goodChar c = true) :
    escapeHtml t = t := by
  induction t with
  | nil => rfl
  | cons c r ih =>
    have hg := goodChar_spec (h c (by simp))
    simp only [escapeHtml]
    rw [ih fun x hx => h x (by simp [hx])]
    simp [hg.2.2.1, hg.1, hg.2.1]

theorem serializeNode_single (tag t : List Char) (h : ∀ c ∈ t, goodChar c = true) :
    serializeNode (.elem tag (.cons (.text t) .nil)) = elemHtml tag t := by
  simp only [serializeNode, serializeForest, escapeHtml_id h, elemHtml]
  simp [List.append_assoc]

/-! ## Identity lemmas for the passes, and the strip chain -/

theorem NoTrig_cons {trig : Char → Bool} {c : Char} {r : List Char}
    (hc : trig c = false) (hr : NoTrig trig r) : NoTrig trig (c :: r) := by
  intro x hx
  cases hx with
  | head => exact hc
  | tail _ h => exact hr x h

theorem NoTrig_append {trig : Char → Bool} {a b : List Char}
    (ha : NoTrig trig a) (hb : NoTrig trig b) : NoTrig trig (a ++ b) := by
  intro x hx
  rcases List.mem_append.mp hx with h | h
  · exact ha x h
  · exact hb x h

theorem tagPass_id {name : List Char} {dotAll : Bool} {mk : List Char → List Char}
    {s : List Char} (h : NoTrig isLt s) : tagPass name dotAll mk s = s :=
  replaceScan_id_noTrig tryTag_headTrig h

theorem stripTags_id {s : List Char} (h : NoTrig isLt s) :
    replaceScan tryStripTag s = s :=
  replaceScan_id_noTrig tryStripTag_headTrig h

theorem litPass_nbsp_id {s : List Char} (h : NoTrig (fun c => c == '&') s) :
    litPass (lc "&nbsp;") (lc " ") s = s :=
  replaceScan_id_noTrig (tryLit_headTrig rfl) h

theorem litPass_amp_id {s : List Char} (h : NoTrig (fun c => c == '&') s) :
    litPass (lc "&amp;") (lc "&") s = s :=
  replaceScan_id_noTrig (tryLit_headTrig rfl) h

theorem litPass_ltEnt_id {s : List Char} (h : NoTrig (fun c => c == '&') s) :
    litPass (lc "&lt;") (lc "<") s = s :=
  replaceScan_id_noTrig (tryLit_headTrig rfl) h

theorem litPass_gtEnt_id {s : List Char} (h : NoTrig (fun c => c == '&') s) :
    litPass (lc "&gt;") (lc ">") s = s :=
  replaceScan_id_noTrig (tryLit_headTrig rfl) h

theorem starScan_id {s : List Char} (h : NoTrig (fun c => c == '*') s) :
    replaceScan (tryWrapCS (lc "**")) s = s :=
  replaceScan_id_noTrig (tryWrapCS_headTrig '*' ['*']) h

theorem starScan1_id {s : List Char} (h : NoTrig (fun c => c == '*') s) :
    replaceScan (tryWrapCS (lc "*")) s = s :=
  replaceScan_id_noTrig (tryWrapCS_headTrig '*' []) h

theorem tickScan_id {s : List Char} (h : NoTrig (fun c => c == '`') s) :
    replaceScan (tryWrapCS (lc "`")) s = s :=
  replaceScan_id_noTrig (tryWrapCS_headTrig '`' []) h

theorem stripHeading_id {s : List Char} (h : ∀ c, s.head? = some c → c ≠ '#') :
    stripHeading s = s := by
  cases s with
  | nil => rfl
  | cons c r =>
    have := h c rfl
    simp [stripHeading, this]

theorem stripDash_id {s : List Char} (h : ∀ c, s.head? = some c → c ≠ '-') :
    stripDash s = s := by
  cases s with
  | nil => rfl
  | cons c r =>
    have := h c rfl
    simp [stripDash, this]

theorem wrapScanStrip (d0 : Char) (ds t : List Char)
    (hsafe : CaptureSafe false false d0 t) :
    replaceScan (tryWrapCS (d0 :: ds)) (d0 :: (ds ++ (t ++ (d0 :: ds)))) = t := by
  have hfire := tryWrapCS_fire d0 ds t [] hsafe
  rw [List.append_nil] at hfire
  rw [List.cons_append] at hfire
  rw [replaceScan_cons_match (tryWrapCS_shrink (by simp)) hfire, replaceScan_nil,
    List.append_nil]

theorem boldScan_id_single_star {c : Char} {t' : List Char}
    (hc : (c == '*') = false) (hno : NoTrig (fun x => x == '*') t') :
    replaceScan (tryWrapCS (lc "**")) ('*' :: c :: (t' ++ ['*']))
      = '*' :: c :: (t' ++ ['*']) := by
  have hcne : chEq false c '*' = false := by
    simp only [chEq, if_neg (by simp : ¬ (false = true))]
    exact hc
  have hfirst : tryWrapCS (lc "**") ('*' :: c :: (t' ++ ['*'])) = none := by
    show tryWrapCS ('*' :: '*' :: []) ('*' :: c :: (t' ++ ['*'])) = none
    simp [tryWrapCS, dropPrefixG, chEq_refl, hcne]
  have hsecond : tryWrapCS (lc "**") (c :: (t' ++ ['*'])) = none :=
    tryWrapCS_headTrig '*' ['*'] c _ hc
  rw [replaceScan_cons_none hfirst, replaceScan_cons_none hsecond]
  rw [show (lc "**" : List Char) = '*' :: ['*'] from rfl]
  rw [replaceScan_append_noTrig (tryWrapCS_headTrig '*' ['*']) hno]
  rw [show replaceScan (tryWrapCS ('*' :: ['*'])) ['*'] = ['*'] from rfl]

/-! The strip chain on each wrapped form.  The hypotheses are those of
`PlainText` minus the conditions irrelevant to the given form. -/

theorem stripMarkers_h1 {t : List Char} (hstar : NoTrig (fun c => c == '*') t)
    (htick : NoTrig (fun c => c == '`') t)
    (hlt : ∀ c ∈ t, isLineTerm c = false)
    (hhead : ∀ c, t.head? = some c → isJsSpace c = false ∧ c ≠ '-') :
    stripMarkers (lc "# " ++ t) = t := by
  simp only [stripMarkers]
  rw [show stripHeading (lc "# " ++ t) = dropJsSpace t from rfl]
  rw [dropJsSpace_of_head fun c hc => (hhead c hc).1]
  rw [starScan_id (hstar), starScan1_id (hstar),
    tickScan_id (htick),
    stripDash_id fun c hc => (hhead c hc).2]

theorem stripMarkers_h2 {t : List Char} (hstar : NoTrig (fun c => c == '*') t)
    (htick : NoTrig (fun c => c == '`') t)
    (hlt : ∀ c ∈ t, isLineTerm c = false)
    (hhead : ∀ c, t.head? = some c → isJsSpace c = false ∧ c ≠ '-') :
    stripMarkers (lc "## " ++ t) = t := by
  simp only [stripMarkers]
  rw [show stripHeading (lc "## " ++ t) = dropJsSpace t from rfl]
  rw [dropJsSpace_of_head fun c hc => (hhead c hc).1]
  rw [starScan_id (hstar), starScan1_id (hstar),
    tickScan_id (htick),
    stripDash_id fun c hc => (hhead c hc).2]

theorem stripMarkers_h3 {t : List Char} (hstar : NoTrig (fun c => c == '*') t)
    (htick : NoTrig (fun c => c == '`') t)
    (hlt : ∀ c ∈ t, isLineTerm c = false)
    (hhead : ∀ c, t.head? = some c → isJsSpace c = false ∧ c ≠ '-') :
    stripMarkers (lc "### " ++ t) = t := by
  simp only [stripMarkers]
  rw [show stripHeading (lc "### " ++ t) = dropJsSpace t from rfl]
  rw [dropJsSpace_of_head fun c hc => (hhead c hc).1]
  rw [starScan_id (hstar), starScan1_id (hstar),
    tickScan_id (htick),
    stripDash_id fun c hc => (hhead c hc).2]

theorem stripMarkers_bold {t : List Char} (hstar : NoTrig (fun c => c == '*') t)
    (htick : NoTrig (fun c => c == '`') t)
    (hlt : ∀ c ∈ t, isLineTerm c = false)
    (hhead : ∀ c, t.head? = some c → c ≠ '-') :
    stripMarkers ((lc "**" ++ t) ++ lc "**") = t := by
  simp only [stripMarkers]
  rw [show stripHeading ((lc "**" ++ t) ++ lc "**") = (lc "**" ++ t) ++ lc "**" from rfl]
  rw [show (lc "**" ++ t) ++ lc "**" = '*' :: (['*'] ++ (t ++ ('*' :: ['*']))) from rfl]
  rw [show (lc "**" : List Char) = '*' :: ['*'] from rfl]
  rw [wrapScanStrip '*' ['*'] t (captureSafeCS_of hstar hlt)]
  rw [starScan1_id (hstar), tickScan_id (htick),
    stripDash_id hhead]

theorem stripMarkers_italic {c0 : Char} {t' : List Char}
    (hstar : NoTrig (fun c => c == '*') (c0 :: t'))
    (htick : NoTrig (fun c => c == '`') (c0 :: t'))
    (hlt : ∀ c ∈ (c0 :: t'), isLineTerm c = false)
    (hhead : ∀ c, (c0 :: t').head? = some c → c ≠ '-') :
    stripMarkers ((lc "*" ++ (c0 :: t')) ++ lc "*") = c0 :: t' := by
  simp only [stripMarkers]
  rw [show stripHeading ((lc "*" ++ (c0 :: t')) ++ lc "*")
      = (lc "*" ++ (c0 :: t')) ++ lc "*" from rfl]
  rw [show (lc "*" ++ (c0 :: t')) ++ lc "*" = '*' :: c0 :: (t' ++ ['*']) from rfl]
  rw [boldScan_id_single_star (hstar c0 (by simp)) (fun x hx => hstar x (by simp [hx]))]
  rw [show ('*' :: c0 :: (t' ++ ['*'])) = '*' :: ([] ++ ((c0 :: t') ++ ('*' :: []))) from rfl]
  rw [show (lc "*" : List Char) = '*' :: [] from rfl]
  rw [wrapScanStrip '*' [] (c0 :: t') (captureSafeCS_of hstar hlt)]
  rw [tickScan_id (htick), stripDash_id hhead]

theorem stripMarkers_code {t : List Char} (hstar : NoTrig (fun c => c == '*') t)
    (htick : NoTrig (fun c => c == '`') t)
    (hlt : ∀ c ∈ t, isLineTerm c = false)
    (hhead : ∀ c, t.head? = some c → c ≠ '-') :
    stripMarkers ((lc "`" ++ t) ++ lc "`") = t := by
  simp only [stripMarkers]
  rw [show stripHeading ((lc "`" ++ t) ++ lc "`") = (lc "`" ++ t) ++ lc "`" from rfl]
  rw [show (lc "`" ++ t) ++ lc "`" = '`' :: (t ++ ['`']) from rfl]
  have hnostar : NoTrig (fun c => c == '*') ('`' :: (t ++ ['`'])) :=
    NoTrig_cons (by decide)
      (NoTrig_append hstar (by intro c hc; simp at hc; simp [hc]))
  rw [starScan_id hnostar, starScan1_id hnostar]
  rw [show ('`' :: (t ++ ['`'])) = '`' :: ([] ++ (t ++ ('`' :: []))) from rfl]
  rw [show (lc "`" : List Char) = '`' :: [] from rfl]
  rw [wrapScanStrip '`' [] t (captureSafeCS_of htick hlt)]
  rw [stripDash_id hhead]

theorem stripMarkers_li {t : List Char} (hstar : NoTrig (fun c => c == '*') t)
    (htick : NoTrig (fun c => c == '`') t)
    (hlt : ∀ c ∈ t, isLineTerm c = false)
    (hhead : ∀ c, t.head? = some c → isJsSpace c = false) :
    stripMarkers (lc "- " ++ t) = t := by
  simp only [stripMarkers]
  rw [show stripHeading (lc "- " ++ t) = lc "- " ++ t from rfl]
  have hnostar : NoTrig (fun c => c == '*') (lc "- " ++ t) :=
    NoTrig_append (by decide) (hstar)
  have hnotick : NoTrig (fun c => c == '`') (lc "- " ++ t) :=
    NoTrig_append (by decide) (htick)
  rw [starScan_id hnostar, starScan1_id hnostar, tickScan_id hnotick]
  rw [show stripDash (lc "- " ++ t) = dropJsSpace t from rfl]
  exact dropJsSpace_of_head hhead

theorem stripMarkers_plain {t : List Char} (hstar : NoTrig (fun c => c == '*') t)
    (htick : NoTrig (fun c => c == '`') t)
    (hlt : ∀ c ∈ t, isLineTerm c = false)
    (hhead : ∀ c, t.head? = some c → c ≠ '#' ∧ c ≠ '-') :
    stripMarkers t = t := by
  simp only [stripMarkers]
  rw [stripHeading_id fun c hc => (hhead c hc).1]
  rw [starScan_id (hstar), starScan1_id (hstar),
    tickScan_id (htick), stripDash_id fun c hc => (hhead c hc).2]

/-! ## The Markdown preview of a single plain-text element, per tag -/

theorem preview_single_h1 {t : List Char} (h : PlainText t) :
    htmlToMarkdownPreview (elemHtml (lc "h1") t) = lc "# " ++ t := by
  obtain ⟨hne, hgood, hhead, hlast⟩ := h
  have hnt := goodChar_noLt hgood
  simp only [htmlToMarkdownPreview]
  simp only [tagPass_fire (lc "h1") false (fun c => lc "# " ++ c) t
    (goodChar_captureSafe false hgood)]
  have hmd : NoTrig isLt (lc "# " ++ t) := NoTrig_append (by decide) hnt
  rw [tagPass_id hmd, tagPass_id hmd, tagPass_id hmd, tagPass_id hmd, tagPass_id hmd,
    tagPass_id hmd, tagPass_id hmd, tagPass_id hmd, stripTags_id hmd]
  have hamp : NoTrig (fun c => c == '&') (lc "# " ++ t) :=
    NoTrig_append (by decide) (goodChar_noAmp hgood)
  rw [litPass_nbsp_id hamp, litPass_amp_id hamp, litPass_ltEnt_id hamp, litPass_gtEnt_id hamp]
  refine jsTrim_eq_self ?_ ?_
  · intro c hc
    rw [show (lc "# " ++ t).head? = some '#' from rfl] at hc
    injection hc with h2
    rw [← h2]; decide
  · intro c hc
    rw [List.getLast?_append_of_ne_nil _ hne] at hc
    exact hlast c hc

theorem preview_single_h2 {t : List Char} (h : PlainText t) :
    htmlToMarkdownPreview (elemHtml (lc "h2") t) = lc "## " ++ t := by
  obtain ⟨hne, hgood, hhead, hlast⟩ := h
  have hnt := goodChar_noLt hgood
  have hA : NoTrig isLt (lc "h2" ++ ['>']) := by decide
  have hB : NoTrig isLt ('/' :: lc "h2" ++ ['>']) := by decide
  simp only [htmlToMarkdownPreview]
  rw [tagPass_wrapped_id (lc "h1") false (fun c => lc "# " ++ c) (lc "h2") t hA hB hnt rfl rfl]
  simp only [tagPass_fire (lc "h2") false (fun c => lc "## " ++ c) t
    (goodChar_captureSafe false hgood)]
  have hmd : NoTrig isLt (lc "## " ++ t) := NoTrig_append (by decide) hnt
  rw [tagPass_id hmd, tagPass_id hmd, tagPass_id hmd, tagPass_id hmd, tagPass_id hmd,
    tagPass_id hmd, tagPass_id hmd, stripTags_id hmd]
  have hamp : NoTrig (fun c => c == '&') (lc "## " ++ t) :=
    NoTrig_append (by decide) (goodChar_noAmp hgood)
  rw [litPass_nbsp_id hamp, litPass_amp_id hamp, litPass_ltEnt_id hamp, litPass_gtEnt_id hamp]
  refine jsTrim_eq_self ?_ ?_
  · intro c hc
    rw [show (lc "## " ++ t).head? = some '#' from rfl] at hc
    injection hc with h2
    rw [← h2]; decide
  · intro c hc
    rw [List.getLast?_append_of_ne_nil _ hne] at hc
    exact hlast c hc

theorem preview_single_h3 {t : List Char} (h : PlainText t) :
    htmlToMarkdownPreview (elemHtml (lc "h3") t) = lc "### " ++ t := by
  obtain ⟨hne, hgood, hhead, hlast⟩ := h
  have hnt := goodChar_noLt hgood
  have hA : NoTrig isLt (lc "h3" ++ ['>']) := by decide
  have hB : NoTrig isLt ('/' :: lc "h3" ++ ['>']) := by decide
  simp only [htmlToMarkdownPreview]
  rw [tagPass_wrapped_id (lc "h1") false (fun c => lc "# " ++ c) (lc "h3") t hA hB hnt rfl rfl]
  rw [tagPass_wrapped_id (lc "h2") false (fun c => lc "## " ++ c) (lc "h3") t hA hB hnt rfl rfl]
  simp only [tagPass_fire (lc "h3") false (fun c => lc "### " ++ c) t
    (goodChar_captureSafe false hgood)]
  have hmd : NoTrig isLt (lc "### " ++ t) := NoTrig_append (by decide) hnt
  rw [tagPass_id hmd, tagPass_id hmd, tagPass_id hmd, tagPass_id hmd, tagPass_id hmd,
    tagPass_id hmd, stripTags_id hmd]
  have hamp : NoTrig (fun c => c == '&') (lc "### " ++ t) :=
    NoTrig_append (by decide) (goodChar_noAmp hgood)
  rw [litPass_nbsp_id hamp, litPass_amp_id hamp, litPass_ltEnt_id hamp, litPass_gtEnt_id hamp]
  refine jsTrim_eq_self ?_ ?_
  · intro c hc
    rw [show (lc "### " ++ t).head? = some '#' from rfl] at hc
    injection hc with h2
    rw [← h2]; decide
  · intro c hc
    rw [List.getLast?_append_of_ne_nil _ hne] at hc
    exact hlast c hc

theorem preview_single_strong {t : List Char} (h : PlainText t) :
    htmlToMarkdownPreview (elemHtml (lc "strong") t) = lc "**" ++ t ++ lc "**" := by
  obtain ⟨hne, hgood, hhead, hlast⟩ := h
  have hnt := goodChar_noLt hgood
  have hA : NoTrig isLt (lc "strong" ++ ['>']) := by decide
  have hB : NoTrig isLt ('/' :: lc "strong" ++ ['>']) := by decide
  simp only [htmlToMarkdownPreview]
  rw [tagPass_wrapped_id (lc "h1") false (fun c => lc "# " ++ c) (lc "strong") t hA hB hnt
    rfl rfl]
  rw [tagPass_wrapped_id (lc "h2") false (fun c => lc "## " ++ c) (lc "strong") t hA hB hnt
    rfl rfl]
  rw [tagPass_wrapped_id (lc "h3") false (fun c => lc "### " ++ c) (lc "strong") t hA hB hnt
    rfl rfl]
  simp only [tagPass_fire (lc "strong") false (fun c => lc "**" ++ c ++ lc "**") t
    (goodChar_captureSafe false hgood)]
  have hmd : NoTrig isLt (lc "**" ++ t ++ lc "**") :=
    NoTrig_append (NoTrig_append (by decide) hnt) (by decide)
  rw [tagPass_id hmd, tagPass_id hmd, tagPass_id hmd, tagPass_id hmd, tagPass_id hmd,
    stripTags_id hmd]
  have hamp : NoTrig (fun c => c == '&') (lc "**" ++ t ++ lc "**") :=
    NoTrig_append (NoTrig_append (by decide) (goodChar_noAmp hgood)) (by decide)
  rw [litPass_nbsp_id hamp, litPass_amp_id hamp, litPass_ltEnt_id hamp, litPass_gtEnt_id hamp]
  refine jsTrim_eq_self ?_ ?_
  · intro c hc
    rw [show (lc "**" ++ t ++ lc "**").head? = some '*' from rfl] at hc
    injection hc with h2
    rw [← h2]; decide
  · intro c hc
    rw [List.getLast?_append_of_ne_nil _ (by decide : (lc "**" : List Char) ≠ [])] at hc
    rw [show (lc "**" : List Char).getLast? = some '*' from rfl] at hc
    injection hc with h2
    rw [← h2]; decide

theorem preview_single_b {t : List Char} (h : PlainText t) :
    htmlToMarkdownPreview (elemHtml (lc "b") t) = lc "**" ++ t ++ lc "**" := by
  obtain ⟨hne, hgood, hhead, hlast⟩ := h
  have hnt := goodChar_noLt hgood
  have hA : NoTrig isLt (lc "b" ++ ['>']) := by decide
  have hB : NoTrig isLt ('/' :: lc "b" ++ ['>']) := by decide
  simp only [htmlToMarkdownPreview]
  rw [tagPass_wrapped_id (lc "h1") false (fun c => lc "# " ++ c) (lc "b") t hA hB hnt rfl rfl]
  rw [tagPass_wrapped_id (lc "h2") false (fun c => lc "## " ++ c) (lc "b") t hA hB hnt rfl rfl]
  rw [tagPass_wrapped_id (lc "h3") false (fun c => lc "### " ++ c) (lc "b") t hA hB hnt rfl rfl]
  rw [tagPass_wrapped_id (lc "strong") false (fun c => lc "**" ++ c ++ lc "**") (lc "b") t
    hA hB hnt rfl rfl]
  simp only [tagPass_fire (lc "b") false (fun c => lc "**" ++ c ++ lc "**") t
    (goodChar_captureSafe false hgood)]
  have hmd : NoTrig isLt (lc "**" ++ t ++ lc "**") :=
    NoTrig_append (NoTrig_append (by decide) hnt) (by decide)
  rw [tagPass_id hmd, tagPass_id hmd, tagPass_id hmd, tagPass_id hmd, stripTags_id hmd]
  have hamp : NoTrig (fun c => c == '&') (lc "**" ++ t ++ lc "**") :=
    NoTrig_append (NoTrig_append (by decide) (goodChar_noAmp hgood)) (by decide)
  rw [litPass_nbsp_id hamp, litPass_amp_id hamp, litPass_ltEnt_id hamp, litPass_gtEnt_id hamp]
  refine jsTrim_eq_self ?_ ?_
  · intro c hc
    rw [show (lc "**" ++ t ++ lc "**").head? = some '*' from rfl] at hc
    injection hc with h2
    rw [← h2]; decide
  · intro c hc
    rw [List.getLast?_append_of_ne_nil _ (by decide : (lc "**" : List Char) ≠ [])] at hc
    rw [show (lc "**" : List Char).getLast? = some '*' from rfl] at hc
    injection hc with h2
    rw [← h2]; decide

theorem preview_single_em {t : List Char} (h : PlainText t) :
    htmlToMarkdownPreview (elemHtml (lc "em") t) = lc "*" ++ t ++ lc "*" := by
  obtain ⟨hne, hgood, hhead, hlast⟩ := h
  have hnt := goodChar_noLt hgood
  have hA : NoTrig isLt (lc "em" ++ ['>']) := by decide
  have hB : NoTrig isLt ('/' :: lc "em" ++ ['>']) := by decide
  simp only [htmlToMarkdownPreview]
  rw [tagPass_wrapped_id (lc "h1") false (fun c => lc "# " ++ c) (lc "em") t hA hB hnt rfl rfl]
  rw [tagPass_wrapped_id (lc "h2") false (fun c => lc "## " ++ c) (lc "em") t hA hB hnt rfl rfl]
  rw [tagPass_wrapped_id (lc "h3") false (fun c => lc "### " ++ c) (lc "em") t hA hB hnt
    rfl rfl]
  rw [tagPass_wrapped_id (lc "strong") false (fun c => lc "**" ++ c ++ lc "**") (lc "em") t
    hA hB hnt rfl rfl]
  rw [tagPass_wrapped_id (lc "b") false (fun c => lc "**" ++ c ++ lc "**") (lc "em") t
    hA hB hnt rfl rfl]
  simp only [tagPass_fire (lc "em") false (fun c => lc "*" ++ c ++ lc "*") t
    (goodChar_captureSafe false hgood)]
  have hmd : NoTrig isLt (lc "*" ++ t ++ lc "*") :=
    NoTrig_append (NoTrig_append (by decide) hnt) (by decide)
  rw [tagPass_id hmd, tagPass_id hmd, tagPass_id hmd, stripTags_id hmd]
  have hamp : NoTrig (fun c => c == '&') (lc "*" ++ t ++ lc "*") :=
    NoTrig_append (NoTrig_append (by decide) (goodChar_noAmp hgood)) (by decide)
  rw [litPass_nbsp_id hamp, litPass_amp_id hamp, litPass_ltEnt_id hamp, litPass_gtEnt_id hamp]
  refine jsTrim_eq_self ?_ ?_
  · intro c hc
    rw [show (lc "*" ++ t ++ lc "*").head? = some '*' from rfl] at hc
    injection hc with h2
    rw [← h2]; decide
  · intro c hc
    rw [List.getLast?_append_of_ne_nil _ (by decide : (lc "*" : List Char) ≠ [])] at hc
    rw [show (lc "*" : List Char).getLast? = some '*' from rfl] at hc
    injection hc with h2
    rw [← h2]; decide

theorem preview_single_i {t : List Char} (h : PlainText t) :
    htmlToMarkdownPreview (elemHtml (lc "i") t) = lc "*" ++ t ++ lc "*" := by
  obtain ⟨hne, hgood, hhead, hlast⟩ := h
  have hnt := goodChar_noLt hgood
  have hA : NoTrig isLt (lc "i" ++ ['>']) := by decide
  have hB : NoTrig isLt ('/' :: lc "i" ++ ['>']) := by decide
  simp only [htmlToMarkdownPreview]
  rw [tagPass_wrapped_id (lc "h1") false (fun c => lc "# " ++ c) (lc "i") t hA hB hnt rfl rfl]
  rw [tagPass_wrapped_id (lc "h2") false (fun c => lc "## " ++ c) (lc "i") t hA hB hnt rfl rfl]
  rw [tagPass_wrapped_id (lc "h3") false (fun c => lc "### " ++ c) (lc "i") t hA hB hnt rfl rfl]
  rw [tagPass_wrapped_id (lc "strong") false (fun c => lc "**" ++ c ++ lc "**") (lc "i") t
    hA hB hnt rfl rfl]
  rw [tagPass_wrapped_id (lc "b") false (fun c => lc "**" ++ c ++ lc "**") (lc "i") t
    hA hB hnt rfl rfl]
  rw [tagPass_wrapped_id (lc "em") false (fun c => lc "*" ++ c ++ lc "*") (lc "i") t
    hA hB hnt rfl rfl]
  simp only [tagPass_fire (lc "i") false (fun c => lc "*" ++ c ++ lc "*") t
    (goodChar_captureSafe false hgood)]
  have hmd : NoTrig isLt (lc "*" ++ t ++ lc "*") :=
    NoTrig_append (NoTrig_append (by decide) hnt) (by decide)
  rw [tagPass_id hmd, tagPass_id hmd, stripTags_id hmd]
  have hamp : NoTrig (fun c => c == '&') (lc "*" ++ t ++ lc "*") :=
    NoTrig_append (NoTrig_append (by decide) (goodChar_noAmp hgood)) (by decide)
  rw [litPass_nbsp_id hamp, litPass_amp_id hamp, litPass_ltEnt_id hamp, litPass_gtEnt_id hamp]
  refine jsTrim_eq_self ?_ ?_
  · intro c hc
    rw [show (lc "*" ++ t ++ lc "*").head? = some '*' from rfl] at hc
    injection hc with h2
    rw [← h2]; decide
  · intro c hc
    rw [List.getLast?_append_of_ne_nil _ (by decide : (lc "*" : List Char) ≠ [])] at hc
    rw [show (lc "*" : List Char).getLast? = some '*' from rfl] at hc
    injection hc with h2
    rw [← h2]; decide

theorem preview_single_code {t : List Char} (h : PlainText t) :
    htmlToMarkdownPreview (elemHtml (lc "code") t) = lc "`" ++ t ++ lc "`" := by
  obtain ⟨hne, hgood, hhead, hlast⟩ := h
  have hnt := goodChar_noLt hgood
  have hA : NoTrig isLt (lc "code" ++ ['>']) := by decide
  have hB : NoTrig isLt ('/' :: lc "code" ++ ['>']) := by decide
  simp only [htmlToMarkdownPreview]
  rw [tagPass_wrapped_id (lc "h1") false (fun c => lc "# " ++ c) (lc "code") t hA hB hnt
    rfl rfl]
  rw [tagPass_wrapped_id (lc "h2") false (fun c => lc "## " ++ c) (lc "code") t hA hB hnt
    rfl rfl]
  rw [tagPass_wrapped_id (lc "h3") false (fun c => lc "### " ++ c) (lc "code") t hA hB hnt
    rfl rfl]
  rw [tagPass_wrapped_id (lc "strong") false (fun c => lc "**" ++ c ++ lc "**") (lc "code") t
    hA hB hnt rfl rfl]
  rw [tagPass_wrapped_id (lc "b") false (fun c => lc "**" ++ c ++ lc "**") (lc "code") t
    hA hB hnt rfl rfl]
  rw [tagPass_wrapped_id (lc "em") false (fun c => lc "*" ++ c ++ lc "*") (lc "code") t
    hA hB hnt rfl rfl]
  rw [tagPass_wrapped_id (lc "i") false (fun c => lc "*" ++ c ++ lc "*") (lc "code") t
    hA hB hnt rfl rfl]
  simp only [tagPass_fire (lc "code") false (fun c => lc "`" ++ c ++ lc "`") t
    (goodChar_captureSafe false hgood)]
  have hmd : NoTrig isLt (lc "`" ++ t ++ lc "`") :=
    NoTrig_append (NoTrig_append (by decide) hnt) (by decide)
  rw [tagPass_id hmd, stripTags_id hmd]
  have hamp : NoTrig (fun c => c == '&') (lc "`" ++ t ++ lc "`") :=
    NoTrig_append (NoTrig_append (by decide) (goodChar_noAmp hgood)) (by decide)
  rw [litPass_nbsp_id hamp, litPass_amp_id hamp, litPass_ltEnt_id hamp, litPass_gtEnt_id hamp]
  refine jsTrim_eq_self ?_ ?_
  · intro c hc
    rw [show (lc "`" ++ t ++ lc "`").head? = some '`' from rfl] at hc
    injection hc with h2
    rw [← h2]; decide
  · intro c hc
    rw [List.getLast?_append_of_ne_nil _ (by decide : (lc "`" : List Char) ≠ [])] at hc
    rw [show (lc "`" : List Char).getLast? = some '`' from rfl] at hc
    injection hc with h2
    rw [← h2]; decide

theorem preview_single_li {t : List Char} (h : PlainText t) :
    htmlToMarkdownPreview (elemHtml (lc "li") t) = lc "- " ++ t := by
  obtain ⟨hne, hgood, hhead, hlast⟩ := h
  have hnt := goodChar_noLt hgood
  have hA : NoTrig isLt (lc "li" ++ ['>']) := by decide
  have hB : NoTrig isLt ('/' :: lc "li" ++ ['>']) := by decide
  simp only [htmlToMarkdownPreview]
  rw [tagPass_wrapped_id (lc "h1") false (fun c => lc "# " ++ c) (lc "li") t hA hB hnt rfl rfl]
  rw [tagPass_wrapped_id (lc "h2") false (fun c => lc "## " ++ c) (lc "li") t hA hB hnt rfl rfl]
  rw [tagPass_wrapped_id (lc "h3") false (fun c => lc "### " ++ c) (lc "li") t hA hB hnt
    rfl rfl]
  rw [tagPass_wrapped_id (lc "strong") false (fun c => lc "**" ++ c ++ lc "**") (lc "li") t
    hA hB hnt rfl rfl]
  rw [tagPass_wrapped_id (lc "b") false (fun c => lc "**" ++ c ++ lc "**") (lc "li") t
    hA hB hnt rfl rfl]
  rw [tagPass_wrapped_id (lc "em") false (fun c => lc "*" ++ c ++ lc "*") (lc "li") t
    hA hB hnt rfl rfl]
  rw [tagPass_wrapped_id (lc "i") false (fun c => lc "*" ++ c ++ lc "*") (lc "li") t
    hA hB hnt rfl rfl]
  rw [tagPass_wrapped_id (lc "code") false (fun c => lc "`" ++ c ++ lc "`") (lc "li") t
    hA hB hnt rfl rfl]
  simp only [tagPass_fire (lc "li") false (fun c => lc "- " ++ c) t
    (goodChar_captureSafe false hgood)]
  have hmd : NoTrig isLt (lc "- " ++ t) := NoTrig_append (by decide) hnt
  rw [stripTags_id hmd]
  have hamp : NoTrig (fun c => c == '&') (lc "- " ++ t) :=
    NoTrig_append (by decide) (goodChar_noAmp hgood)
  rw [litPass_nbsp_id hamp, litPass_amp_id hamp, litPass_ltEnt_id hamp, litPass_gtEnt_id hamp]
  refine jsTrim_eq_self ?_ ?_
  · intro c hc
    rw [show (lc "- " ++ t).head? = some '-' from rfl] at hc
    injection hc with h2
    rw [← h2]; decide
  · intro c hc
    rw [List.getLast?_append_of_ne_nil _ hne] at hc
    exact hlast c hc

theorem preview_single_p {t : List Char} (h : PlainText t) :
    htmlToMarkdownPreview (elemHtml (lc "p") t) = t := by
  obtain ⟨hne, hgood, hhead, hlast⟩ := h
  have hnt := goodChar_noLt hgood
  have hA : NoTrig isLt (lc "p" ++ ['>']) := by decide
  have hB : NoTrig isLt ('/' :: lc "p" ++ ['>']) := by decide
  simp only [htmlToMarkdownPreview]
  rw [tagPass_wrapped_id (lc "h1") false (fun c => lc "# " ++ c) (lc "p") t hA hB hnt rfl rfl]
  rw [tagPass_wrapped_id (lc "h2") false (fun c => lc "## " ++ c) (lc "p") t hA hB hnt rfl rfl]
  rw [tagPass_wrapped_id (lc "h3") false (fun c => lc "### " ++ c) (lc "p") t hA hB hnt rfl rfl]
  rw [tagPass_wrapped_id (lc "strong") false (fun c => lc "**" ++ c ++ lc "**") (lc "p") t
    hA hB hnt rfl rfl]
  rw [tagPass_wrapped_id (lc "b") false (fun c => lc "**" ++ c ++ lc "**") (lc "p") t
    hA hB hnt rfl rfl]
  rw [tagPass_wrapped_id (lc "em") false (fun c => lc "*" ++ c ++ lc "*") (lc "p") t
    hA hB hnt rfl rfl]
  rw [tagPass_wrapped_id (lc "i") false (fun c => lc "*" ++ c ++ lc "*") (lc "p") t
    hA hB hnt rfl rfl]
  rw [tagPass_wrapped_id (lc "code") false (fun c => lc "`" ++ c ++ lc "`") (lc "p") t
    hA hB hnt rfl rfl]
  rw [tagPass_wrapped_id (lc "li") false (fun c => lc "- " ++ c) (lc "p") t hA hB hnt rfl rfl]
  -- the generic tag strip removes `<p>` and `</p>`:
  have hstrip1 : tryStripTag (elemHtml (lc "p") t)
      = some ([], t ++ ('<' :: ('/' :: lc "p" ++ ['>']))) := rfl
  rw [show replaceScan tryStripTag (elemHtml (lc "p") t)
      = t ++ replaceScan tryStripTag ('<' :: ('/' :: lc "p" ++ ['>'])) by
    rw [show (elemHtml (lc "p") t)
        = '<' :: ((lc "p" ++ ['>']) ++ (t ++ ('<' :: ('/' :: lc "p" ++ ['>'])))) from rfl]
    rw [replaceScan_cons_match tryStripTag_shrink hstrip1]
    rw [replaceScan_append_noTrig tryStripTag_headTrig hnt]
    rfl]
  rw [show replaceScan tryStripTag ('<' :: ('/' :: lc "p" ++ ['>'])) = [] from rfl]
  rw [List.append_nil]
  have hamp : NoTrig (fun c => c == '&') t := goodChar_noAmp hgood
  rw [litPass_nbsp_id hamp, litPass_amp_id hamp, litPass_ltEnt_id hamp, litPass_gtEnt_id hamp]
  exact jsTrim_eq_self (fun c hc => (hhead c hc).1) hlast

/-! ## Writing the same text back is a no-op on the document -/

theorem setNodeTextF_self_aux :
    ∀ (k : Nat) (doc : DomForest), sizeOf doc ≤ k →
      ∀ (p : List Nat) (tag t : List Char),
        getNode doc p = some (.elem tag (.cons (.text t) .nil)) →
        setNodeTextF doc p t = doc := by
  intro k
  induction k using Nat.strong_induction_on with
  | _ k ih =>
    intro doc hk p tag t hget
    cases doc with
    | nil =>
      cases p with
      | nil => rfl
      | cons i p' =>
        exfalso
        cases p' with
        | nil => simp [getNode, forestGet] at hget
        | cons j p'' => simp [getNode, forestGet] at hget
    | cons n rest =>
      have hsz : sizeOf (DomForest.cons n rest) = 1 + sizeOf n + sizeOf rest := by
        simp
      cases p with
      | nil => rfl
      | cons i p' =>
        cases i with
        | zero =>
          cases p' with
          | nil =>
            have hn : n = .elem tag (.cons (.text t) .nil) := by
              simpa [getNode, forestGet] using hget
            subst hn
            rfl
          | cons j p'' =>
            have hget2 :
                (match forestGet (DomForest.cons n rest) 0 with
                  | some (.elem _ cs) => getNode cs (j :: p'')
                  | _ => none) = some (DomNode.elem tag (.cons (.text t) .nil)) := hget
            cases n with
            | text s => simp [forestGet] at hget2
            | elem tg cs =>
              have hget3 : getNode cs (j :: p'')
                  = some (DomNode.elem tag (.cons (.text t) .nil)) := by
                simpa [forestGet] using hget2
              have hcs : sizeOf cs < k := by
                have h1 : sizeOf (DomNode.elem tg cs) = 1 + sizeOf tg + sizeOf cs := by simp
                omega
              have := ih (sizeOf cs) hcs cs (Nat.le_refl _) (j :: p'') tag t hget3
              show DomForest.cons (setNodeTextN (.elem tg cs) (j :: p'') t) rest
                = DomForest.cons (.elem tg cs) rest
              rw [show setNodeTextN (.elem tg cs) (j :: p'') t
                  = .elem tg (setNodeTextF cs (j :: p'') t) from rfl, this]
        | succ i' =>
          have hget2 : getNode rest (i' :: p')
              = some (DomNode.elem tag (.cons (.text t) .nil)) := by
            cases p' with
            | nil => simpa [getNode, forestGet] using hget
            | cons j p'' =>
              have : (match forestGet rest i' with
                  | some (.elem _ cs) => getNode cs (j :: p'')
                  | _ => none) = some (DomNode.elem tag (.cons (.text t) .nil)) := hget
              exact this
          have hrest : sizeOf rest < k := by omega
          have := ih (sizeOf rest) hrest rest (Nat.le_refl _) (i' :: p') tag t hget2
          show DomForest.cons n (setNodeTextF rest (i' :: p') t) = DomForest.cons n rest
          rw [this]

theorem setNodeTextF_self {doc : DomForest} {p : List Nat} {tag t : List Char}
    (hget : getNode doc p = some (.elem tag (.cons (.text t) .nil))) :
    setNodeTextF doc p t = doc :=
  setNodeTextF_self_aux (sizeOf doc) doc (Nat.le_refl _) p tag t hget

/-! ## Claim C4: overlay commit idempotence -/

theorem commit_noop_of (doc : DomForest) (p : List Nat) (tag t w v : List Char)
    (saves : List (List Char))
    (hget : getNode doc p = some (.elem tag (.cons (.text t) .nil)))
    (htag : tag ∈ qualifyingTags)
    (hprev : htmlToMarkdownPreview (serializeNode (.elem tag (.cons (.text t) .nil))) = w)
    (hw : 0 < w.length)
    (hstrip : stripMarkers w = t) :
    (applyEdit (handleEditorClick ⟨doc, none, v, saves⟩ p)).doc = doc := by
  have hclick : handleEditorClick ⟨doc, none, v, saves⟩ p
      = ⟨doc, some ⟨p, tag, w, textContentForest (.cons (.text t) .nil)⟩, w, saves⟩ := by
    unfold handleEditorClick
    simp only [Option.isSome_none, Bool.false_eq_true, if_false, hget, if_pos htag, hprev,
      if_pos hw]
  rw [hclick]
  unfold applyEdit
  simp only [hstrip, hget, setNodeTextF_self hget]

/-- The nested-children document for the C4 counterexample:
`<h1>Hello <strong>bold</strong></h1>`. -/
def c4Doc : DomForest :=
  .cons (.elem (lc "h1")
    (.cons (.text (lc "Hello "))
      (.cons (.elem (lc "strong") (.cons (.text (lc "bold")) .nil)) .nil))) .nil

/-- The Markdown syntax table: element tag → (prefix, suffix), exactly the
replacements applied per tag by `htmlToMarkdownPreview`. -/
def mdSyntaxTable : List (List Char × List Char × List Char) :=
  [(lc "h1", lc "# ", lc ""), (lc "h2", lc "## ", lc ""), (lc "h3", lc "### ", lc ""),
   (lc "strong", lc "**", lc "**"), (lc "b", lc "**", lc "**"),
   (lc "em", lc "*", lc "*"), (lc "i", lc "*", lc "*"),
   (lc "code", lc "`", lc "`"), (lc "li", lc "- ", lc "")]

/-- `wrap`: apply a tag's prefix and suffix to a text. -/
def wrapTag (pre suf t : List Char) : List Char := pre ++ t ++ suf

/-- Text safe for the strip∘wrap round trip: no `*`, no `` ` ``, no line
terminators, not starting with whitespace or `-`. -/
def StripSafe (t : List Char) : Prop :=
  (∀ c ∈ t, (c == '*') = false ∧ (c == '`') = false ∧ isLineTerm c = false) ∧
  (∀ c, t.head? = some c → isJsSpace c = false ∧ c ≠ '-')

instance (t : List Char) : Decidable (StripSafe t) := by
  unfold StripSafe; infer_instance

/-- C5, counterexample to the claim as stated.  For the tag `h1` the text
`a*b*c` contains none of h1's own delimiter characters (`#`, space), yet
`strip(wrap(text, h1))` is `abc`, not the text: the strip chain of `applyEdit`
always applies the bold/italic/code delimiter removals regardless of the tag,
so a `*` inside the text of a heading is destroyed. -/
theorem C5_strip_wrap_counterexample :
    ('#' ∉ lc "a*b*c" ∧ ' ' ∉ lc "a*b*c") ∧
    (lc "h1", lc "# ", lc "") ∈ mdSyntaxTable ∧
    stripMarkers (wrapTag (lc "# ") (lc "") (lc "a*b*c")) = lc "abc" ∧
    stripMarkers (wrapTag (lc "# ") (lc "") (lc "a*b*c")) ≠ lc "a*b*c" := by
  decide

/-- C5, amended: for each `(tag, prefix, suffix)` of the syntax table and every
text containing no `*`, `` ` `` or line terminator and not starting with
whitespace or `-`, stripping the `applyEdit` delimiter chain from the wrapped
form returns the text: `stripMarkers (wrapTag prefix suffix t) = t`. -/
theorem C5_strip_wrap (e : List Char × List Char × List Char)
    (hmem : e ∈ mdSyntaxTable) (t : List Char) (hsafe : StripSafe t) :
    stripMarkers (wrapTag e.2.1 e.2.2 t) = t := by
  obtain ⟨hchar, hhead⟩ := hsafe
  have hstar : NoTrig (fun c => c == '*') t := fun c hc => (hchar c hc).1
  have htick : NoTrig (fun c => c == '`') t := fun c hc => (hchar c hc).2.1
  have hlt : ∀ c ∈ t, isLineTerm c = false := fun c hc => (hchar c hc).2.2
  have hh2 : ∀ c, t.head? = some c → isJsSpace c = false ∧ c ≠ '-' := hhead
  fin_cases hmem
  · rw [show wrapTag (lc "# ") (lc "") t = lc "# " ++ t by simp [wrapTag, lc]]
    exact stripMarkers_h1 hstar htick hlt hh2
  · rw [show wrapTag (lc "## ") (lc "") t = lc "## " ++ t by simp [wrapTag, lc]]
    exact stripMarkers_h2 hstar htick hlt hh2
  · rw [show wrapTag (lc "### ") (lc "") t = lc "### " ++ t by simp [wrapTag, lc]]
    exact stripMarkers_h3 hstar htick hlt hh2
  · rw [show wrapTag (lc "**") (lc "**") t = (lc "**" ++ t) ++ lc "**" from rfl]
    exact stripMarkers_bold hstar htick hlt (fun c hc => (hh2 c hc).2)
  · rw [show wrapTag (lc "**") (lc "**") t = (lc "**" ++ t) ++ lc "**" from rfl]
    exact stripMarkers_bold hstar htick hlt (fun c hc => (hh2 c hc).2)
  · cases t with
    | nil => decide
    | cons c0 t' =>
      rw [show wrapTag (lc "*") (lc "*") (c0 :: t')
          = (lc "*" ++ (c0 :: t')) ++ lc "*" from rfl]
      exact stripMarkers_italic hstar htick hlt (fun c hc => (hh2 c hc).2)
  · cases t with
    | nil => decide
    | cons c0 t' =>
      rw [show wrapTag (lc "*") (lc "*") (c0 :: t')
          = (lc "*" ++ (c0 :: t')) ++ lc "*" from rfl]
      exact stripMarkers_italic hstar htick hlt (fun c hc => (hh2 c hc).2)
  · rw [show wrapTag (lc "`") (lc "`") t = (lc "`" ++ t) ++ lc "`" from rfl]
    exact stripMarkers_code hstar htick hlt (fun c hc => (hh2 c hc).2)
  · rw [show wrapTag (lc "- ") (lc "") t = lc "- " ++ t by simp [wrapTag, lc]]
    exact stripMarkers_li hstar htick hlt (fun c hc => (hh2 c hc).1)

/-- Witness for the amended C5 at the `strong` entry with text `Hello`. -/
theorem C5_strip_wrap_witness :
    ((lc "strong", lc "**", lc "**") ∈ mdSyntaxTable) ∧ StripSafe (lc "Hello") ∧
    stripMarkers (wrapTag (lc "**") (lc "**") (lc "Hello")) = lc "Hello" :=
  ⟨by decide, by decide,
    C5_strip_wrap (lc "strong", lc "**", lc "**") (by decide) (lc "Hello") (by decide)⟩

/-! ## Claim C9: the cleanup phase of htmlToMarkdown -/

/-- Case-sensitive substring search. -/
def containsSub (pat : List Char) : List Char → Bool
  | [] => isPrefixG false pat []
  | c :: rest => isPrefixG false pat (c :: rest) || containsSub pat rest

theorem tryCollapse_shrink : Shrink tryCollapse := by
  intro s rep a h
  unfold tryCollapse at h
  by_cases hc : 3 ≤ countNl s
  · simp only [hc, if_pos] at h
    simp only [Option.some.injEq, Prod.mk.injEq] at h
    obtain ⟨-, hr⟩ := h
    subst hr
    have hk : countNl s ≤ s.length := by
      clear hc
      induction s with
      | nil => simp [countNl]
      | cons c r ih =>
        by_cases hcc : c = '\n'
        · simp [countNl, hcc, List.length_cons]; omega
        · simp [countNl, hcc, List.length_cons]
    simp only [List.length_drop]
    omega
  · simp [hc] at h

theorem tryCollapse_headTrig : HeadTrig tryCollapse (fun c => c == '\n') := by
  intro c r h
  have : ¬ c = '\n' := by simpa using h
  simp [tryCollapse, countNl, this]

theorem countNl_cons (c : Char) (r : List Char) :
    countNl (c :: r) = if c = '\n' then countNl r + 1 else 0 := rfl

theorem countNl_drop : ∀ s : List Char, countNl (s.drop (countNl s)) = 0 := by
  intro s
  induction s with
  | nil => rfl
  | cons c r ih =>
    by_cases hc : c = '\n'
    · subst hc
      rw [countNl_cons, if_pos rfl, List.drop_succ_cons]
      exact ih
    · rw [countNl_cons, if_neg hc, List.drop_zero, countNl_cons, if_neg hc]

theorem isPrefixG_nnn_false {l : List Char} (h : countNl l < 3) :
    isPrefixG false (lc "\n\n\n") l = false := by
  cases l with
  | nil => rfl
  | cons c1 r1 =>
    by_cases h1 : c1 = '\n'
    · subst h1
      cases r1 with
      | nil => rfl
      | cons c2 r2 =>
        by_cases h2 : c2 = '\n'
        · subst h2
          cases r2 with
          | nil => rfl
          | cons c3 r3 =>
            by_cases h3 : c3 = '\n'
            · exfalso
              subst h3
              simp [countNl_cons] at h
              omega
            · have : chEq false c3 '\n' = false := by
                simp only [chEq, if_neg (by simp : ¬ (false = true))]
                simpa using h3
              simp [isPrefixG, dropPrefixG, chEq_refl, this]
        · have : chEq false c2 '\n' = false := by
            simp only [chEq, if_neg (by simp : ¬ (false = true))]
            simpa using h2
          simp [isPrefixG, dropPrefixG, chEq_refl, this]
    · have : chEq false c1 '\n' = false := by
        simp only [chEq, if_neg (by simp : ¬ (false = true))]
        simpa using h1
      simp [isPrefixG, dropPrefixG, this]

theorem tryCollapse_eq_some {s : List Char} (h : 3 ≤ countNl s) :
    tryCollapse s = some (['\n', '\n'], s.drop (countNl s)) := by
  simp [tryCollapse, h]

theorem tryCollapse_eq_none {s : List Char} (h : ¬ 3 ≤ countNl s) :
    tryCollapse s = none := by
  simp [tryCollapse, h]

/-- The leading newline run of the collapse pass output is `min` of the input
run and 2. -/
theorem countNl_scanCollapse :
    ∀ (N : Nat) (s : List Char), s.length ≤ N →
      countNl (replaceScan tryCollapse s) = min (countNl s) 2 := by
  intro N
  induction N with
  | zero =>
    intro s hN
    have : s = [] := List.length_eq_zero.mp (Nat.le_zero.mp hN)
    subst this
    rfl
  | succ N ih =>
    intro s hN
    cases s with
    | nil => rfl
    | cons c r =>
      by_cases hm : 3 ≤ countNl (c :: r)
      · have hstep := tryCollapse_eq_some hm
        rw [replaceScan_cons_match tryCollapse_shrink hstep]
        have hafter : countNl ((c :: r).drop (countNl (c :: r))) = 0 := countNl_drop _
        have hlen : ((c :: r).drop (countNl (c :: r))).length ≤ N := by
          have := tryCollapse_shrink _ _ _ hstep
          simp only [List.length_cons] at this hN ⊢
          omega
        have hih := ih _ hlen
        rw [hafter] at hih
        show countNl ('\n' :: '\n' :: (replaceScan tryCollapse _)) = _
        rw [countNl_cons, countNl_cons, if_pos rfl, if_pos rfl, hih]
        omega
      · have hstep := tryCollapse_eq_none hm
        rw [replaceScan_cons_none hstep]
        by_cases hc : c = '\n'
        · subst hc
          have hr : countNl r ≤ 1 := by
            simp [countNl_cons] at hm
            omega
          have hih := ih r (by simp only [List.length_cons] at hN; omega)
          rw [countNl_cons, if_pos rfl, countNl_cons, if_pos rfl, hih]
          omega
        · rw [countNl_cons, if_neg hc, countNl_cons, if_neg hc]
          simp

/-- The collapse pass output never contains three consecutive newlines. -/
theorem scanCollapse_noTriple :
    ∀ (N : Nat) (s : List Char), s.length ≤ N →
      containsSub (lc "\n\n\n") (replaceScan tryCollapse s) = false := by
  intro N
  induction N with
  | zero =>
    intro s hN
    have : s = [] := List.length_eq_zero.mp (Nat.le_zero.mp hN)
    subst this
    rfl
  | succ N ih =>
    intro s hN
    cases s with
    | nil => rfl
    | cons c r =>
      by_cases hm : 3 ≤ countNl (c :: r)
      · have hstep := tryCollapse_eq_some hm
        rw [replaceScan_cons_match tryCollapse_shrink hstep]
        have hafter : countNl ((c :: r).drop (countNl (c :: r))) = 0 := countNl_drop _
        have hlen : ((c :: r).drop (countNl (c :: r))).length ≤ N := by
          have := tryCollapse_shrink _ _ _ hstep
          simp only [List.length_cons] at this hN ⊢
          omega
        have htail0 : countNl (replaceScan tryCollapse ((c :: r).drop (countNl (c :: r)))) = 0 := by
          rw [countNl_scanCollapse _ _ (Nat.le_refl _), hafter]; omega
        have htail := ih _ hlen
        show containsSub (lc "\n\n\n")
          ('\n' :: '\n' :: replaceScan tryCollapse ((c :: r).drop (countNl (c :: r)))) = false
        rw [containsSub, containsSub, htail]
        rw [isPrefixG_nnn_false (l := '\n' :: '\n' :: _) (by
          rw [countNl_cons, countNl_cons, if_pos rfl, if_pos rfl, htail0]; omega)]
        rw [isPrefixG_nnn_false (l := '\n' :: _) (by
          rw [countNl_cons, if_pos rfl, htail0]; omega)]
        rfl
      · have hstep := tryCollapse_eq_none hm
        rw [replaceScan_cons_none hstep]
        have htail := ih r (by simp only [List.length_cons] at hN; omega)
        rw [containsSub, htail]
        have hbound : countNl (c :: replaceScan tryCollapse r) < 3 := by
          by_cases hc : c = '\n'
          · subst hc
            have hr : countNl r ≤ 1 := by
              simp [countNl_cons] at hm
              omega
            rw [countNl_cons, if_pos rfl, countNl_scanCollapse _ _ (Nat.le_refl _)]
            omega
          · rw [countNl_cons, if_neg hc]
            omega
        rw [isPrefixG_nnn_false hbound]
        rfl

/-! containsSub is monotone with respect to prefixes and suffixes. -/

theorem isPrefixG_mono {pat : List Char} :
    ∀ {l b : List Char}, isPrefixG false pat l = true → isPrefixG false pat (l ++ b) = true := by
  induction pat with
  | nil => intro l b _; rfl
  | cons p ps ih =>
    intro l b h
    cases l with
    | nil => simp [isPrefixG, dropPrefixG] at h
    | cons c cs =>
      simp only [isPrefixG, dropPrefixG] at h ⊢
      by_cases hc : chEq false c p
      · rw [if_pos hc] at h ⊢
        exact ih h
      · rw [if_neg hc] at h
        simp at h

theorem containsSub_append_left {pat : List Char} :
    ∀ {a : List Char} (b : List Char),
      containsSub pat a = true → containsSub pat (a ++ b) = true := by
  intro a
  induction a with
  | nil =>
    intro b h
    have hpat : pat = [] := by
      cases pat with
      | nil => rfl
      | cons p ps => simp [containsSub, isPrefixG, dropPrefixG] at h
    subst hpat
    cases b with
    | nil => rfl
    | cons c r =>
      show (isPrefixG false [] (c :: r) || containsSub [] r) = true
      rfl
  | cons c r ih =>
    intro b h
    have h2 : (isPrefixG false pat (c :: r) || containsSub pat r) = true := h
    show (isPrefixG false pat (c :: (r ++ b)) || containsSub pat (r ++ b)) = true
    rcases Bool.or_eq_true_iff.mp h2 with h3 | h3
    · have h4 : isPrefixG false pat ((c :: r) ++ b) = true := isPrefixG_mono h3
      have h5 : isPrefixG false pat (c :: (r ++ b)) = true := h4
      rw [h5]
      rfl
    · rw [ih b h3, Bool.or_true]

theorem containsSub_append_right {pat : List Char} :
    ∀ {a b : List Char}, containsSub pat b = true → containsSub pat (a ++ b) = true := by
  intro a
  induction a with
  | nil => intro b h; simpa using h
  | cons c r ih =>
    intro b h
    show (isPrefixG false pat (c :: (r ++ b)) || containsSub pat (r ++ b)) = true
    rw [ih h, Bool.or_true]

theorem containsSub_prefix_false {pat a b : List Char}
    (h : containsSub pat (a ++ b) = false) : containsSub pat a = false := by
  by_contra hx
  have : containsSub pat a = true := by revert hx; cases containsSub pat a <;> simp
  rw [containsSub_append_left b this] at h
  exact absurd h (by simp)

theorem containsSub_suffix_false {pat a b : List Char}
    (h : containsSub pat (a ++ b) = false) : containsSub pat b = false := by
  by_contra hx
  have : containsSub pat b = true := by revert hx; cases containsSub pat b <;> simp
  rw [containsSub_append_right this] at h
  exact absurd h (by simp)

/-! `dropJsSpace` is a suffix, `dropWhile` is a suffix, the right trim is a
prefix; hence `jsTrim` preserves the absence of a substring. -/

theorem dropJsSpace_suffix (s : List Char) : ∃ a, a ++ dropJsSpace s = s := by
  induction s with
  | nil => exact ⟨[], rfl⟩
  | cons c r ih =>
    by_cases hc : isJsSpace c
    · obtain ⟨a, ha⟩ := ih
      exact ⟨c :: a, by simp [dropJsSpace, hc, ha]⟩
    · exact ⟨[], by simp [dropJsSpace, hc]⟩

theorem dropWhile_suffix (p : Char → Bool) (s : List Char) :
    ∃ a, a ++ s.dropWhile p = s := by
  induction s with
  | nil => exact ⟨[], rfl⟩
  | cons c r ih =>
    by_cases hc : p c
    · obtain ⟨a, ha⟩ := ih
      exact ⟨c :: a, by simp [List.dropWhile_cons, hc, ha]⟩
    · exact ⟨[], by simp [List.dropWhile_cons, hc]⟩

theorem jsTrim_substring (s : List Char) : ∃ a b, s = a ++ jsTrim s ++ b := by
  obtain ⟨a, ha⟩ := dropJsSpace_suffix s
  obtain ⟨b, hb⟩ := dropWhile_suffix isJsSpace (dropJsSpace s).reverse
  refine ⟨a, b.reverse, ?_⟩
  have : dropJsSpace s = jsTrim s ++ b.reverse := by
    unfold jsTrim
    calc dropJsSpace s = (b ++ (dropJsSpace s).reverse.dropWhile isJsSpace).reverse := by
          rw [hb, List.reverse_reverse]
      _ = ((dropJsSpace s).reverse.dropWhile isJsSpace).reverse ++ b.reverse := by
          rw [List.reverse_append]
  rw [List.append_assoc, ← this]
  exact ha.symm

theorem jsTrim_noSub {pat s : List Char} (h : containsSub pat s = false) :
    containsSub pat (jsTrim s) = false := by
  obtain ⟨a, b, hab⟩ := jsTrim_substring s
  rw [hab] at h
  exact containsSub_prefix_false (containsSub_suffix_false (by
    rw [show a ++ jsTrim s ++ b = a ++ (jsTrim s ++ b) by simp [List.append_assoc]] at h
    exact h))

theorem dropJsSpace_head (s : List Char) :
    ∀ c, (dropJsSpace s).head? = some c → isJsSpace c = false := by
  induction s with
  | nil => intro c hc; simp [dropJsSpace] at hc
  | cons x r ih =>
    intro c hc
    by_cases hx : isJsSpace x
    · rw [show dropJsSpace (x :: r) = dropJsSpace r by simp [dropJsSpace, hx]] at hc
      exact ih c hc
    · rw [show dropJsSpace (x :: r) = x :: r by simp [dropJsSpace, hx]] at hc
      injection hc with h
      rw [← h]
      simpa using hx

theorem dropWhile_head (p : Char → Bool) (s : List Char) :
    ∀ c, (s.dropWhile p).head? = some c → p c = false := by
  induction s with
  | nil => intro c hc; simp at hc
  | cons x r ih =>
    intro c hc
    by_cases hx : p x
    · rw [List.dropWhile_cons, if_pos hx] at hc
      exact ih c hc
    · rw [List.dropWhile_cons, if_neg hx] at hc
      injection hc with h
      rw [← h]
      simpa using hx

theorem jsTrim_trimmed (s : List Char) :
    (∀ c, (jsTrim s).head? = some c → isJsSpace c = false) ∧
    (∀ c, (jsTrim s).getLast? = some c → isJsSpace c = false) := by
  constructor
  · intro c hc
    unfold jsTrim at hc
    obtain ⟨b, hb⟩ := dropWhile_suffix isJsSpace (dropJsSpace s).reverse
    have hx : dropJsSpace s
        = ((dropJsSpace s).reverse.dropWhile isJsSpace).reverse ++ b.reverse := by
      calc dropJsSpace s = (b ++ (dropJsSpace s).reverse.dropWhile isJsSpace).reverse := by
            rw [hb, List.reverse_reverse]
        _ = ((dropJsSpace s).reverse.dropWhile isJsSpace).reverse ++ b.reverse := by
            rw [List.reverse_append]
    cases hT : ((dropJsSpace s).reverse.dropWhile isJsSpace).reverse with
    | nil => rw [hT] at hc; simp at hc
    | cons d T' =>
      rw [hT] at hc
      injection hc with hdc
      have hd : (dropJsSpace s).head? = some d := by
        rw [hx, hT]
        rfl
      rw [← hdc]
      exact dropJsSpace_head s d hd
  · intro c hc
    unfold jsTrim at hc
    rw [show (((dropJsSpace s).reverse.dropWhile isJsSpace).reverse).getLast?
        = ((dropJsSpace s).reverse.dropWhile isJsSpace).head? by
      rw [← List.head?_reverse, List.reverse_reverse]] at hc
    exact dropWhile_head isJsSpace (dropJsSpace s).reverse c hc

/-- C9.  `htmlToMarkdown` factors as the structural rewrites followed by the
cleanup phase: strip remaining tags, decode exactly the five entities
`&nbsp; &amp; &lt; &gt; &quot;` (to space, `&`, `<`, `>`, `"`), collapse runs
of 3+ newlines to exactly 2, and trim — and consequently, for every input, the
output contains no three consecutive newlines and neither starts nor ends with
whitespace. -/
theorem C9_cleanup_phase (html : List Char) :
    htmlToMarkdown html
      = jsTrim (replaceScan tryCollapse (litPass (lc "&quot;") (lc "\x22")
          (litPass (lc "&gt;") (lc ">") (litPass (lc "&lt;") (lc "<")
          (litPass (lc "&amp;") (lc "&") (litPass (lc "&nbsp;") (lc " ")
          (replaceScan tryStripTag (structuralRewrites html)))))))) ∧
    containsSub (lc "\n\n\n") (htmlToMarkdown html) = false ∧
    (∀ c, (htmlToMarkdown html).head? = some c → isJsSpace c = false) ∧
    (∀ c, (htmlToMarkdown html).getLast? = some c → isJsSpace c = false) := by
  refine ⟨rfl, ?_, (jsTrim_trimmed _).1, (jsTrim_trimmed _).2⟩
  show containsSub (lc "\n\n\n") (jsTrim (replaceScan tryCollapse _)) = false
  exact jsTrim_noSub (scanCollapse_noTriple _ _ (Nat.le_refl _))

/-- Witness for C9 at the concrete input `<p>hi</p>`, whose output head is `h`. -/
theorem C9_cleanup_phase_witness :
    (htmlToMarkdown (lc "<p>hi</p>")).head? = some 'h' ∧ isJsSpace 'h' = false :=
  ⟨by decide, (C9_cleanup_phase (lc "<p>hi</p>")).2.2.1 'h' (by decide)⟩

/-! ## Claim C2: the URL-state codec roundtrip -/

theorem utf8DecodeF_step (c : Nat) (hc : ValidCp c) (f : Nat) (rest : List Nat) :
    utf8DecodeF (f + 1) (utf8EncodeCp c ++ rest) = (utf8DecodeF f rest).map (c :: ·) := by
  obtain ⟨h1, -⟩ := hc
  by_cases hA : c < 0x80
  · rw [show utf8EncodeCp c ++ rest = c :: rest by simp [utf8EncodeCp, hA]]
    simp only [utf8DecodeF, if_pos hA]
  · by_cases hB : c < 0x800
    · rw [show utf8EncodeCp c ++ rest = (0xC0 + c / 64) :: (0x80 + c % 64) :: rest by
        simp [utf8EncodeCp, hA, hB]]
      simp only [utf8DecodeF]
      rw [if_neg (by omega), if_neg (by omega), if_pos (by omega)]
      simp only [isCont]
      rw [if_pos (by simp; omega)]
      have hv : (0xC0 + c / 64 - 0xC0) * 64 + (0x80 + c % 64 - 0x80) = c := by omega
      rw [hv]
    · by_cases hC : c < 0x10000
      · rw [show utf8EncodeCp c ++ rest
            = (0xE0 + c / 4096) :: (0x80 + (c / 64) % 64) :: (0x80 + c % 64) :: rest by
          simp [utf8EncodeCp, hA, hB, hC]]
        simp only [utf8DecodeF]
        rw [if_neg (by omega), if_neg (by omega), if_neg (by omega), if_pos (by omega)]
        simp only [isCont]
        rw [if_pos (by simp; omega)]
        have hv : (0xE0 + c / 4096 - 0xE0) * 4096 + (0x80 + (c / 64) % 64 - 0x80) * 64
            + (0x80 + c % 64 - 0x80) = c := by omega
        rw [hv]
      · rw [show utf8EncodeCp c ++ rest
            = (0xF0 + c / 262144) :: (0x80 + (c / 4096) % 64) :: (0x80 + (c / 64) % 64)
              :: (0x80 + c % 64) :: rest by
          simp [utf8EncodeCp, hA, hB, hC]]
        simp only [utf8DecodeF]
        rw [if_neg (by omega), if_neg (by omega), if_neg (by omega), if_neg (by omega),
          if_pos (by omega)]
        simp only [isCont]
        rw [if_pos (by simp; omega)]
        have hv : (0xF0 + c / 262144 - 0xF0) * 262144 + (0x80 + (c / 4096) % 64 - 0x80) * 4096
            + (0x80 + (c / 64) % 64 - 0x80) * 64 + (0x80 + c % 64 - 0x80) = c := by omega
        rw [hv]

theorem utf8EncodeCp_len_pos (c : Nat) : 1 ≤ (utf8EncodeCp c).length := by
  unfold utf8EncodeCp
  split
  · simp
  · split
    · simp
    · split <;> simp

theorem utf8Encode_len (cps : List Nat) : cps.length ≤ (utf8Encode cps).length := by
  induction cps with
  | nil => simp [utf8Encode]
  | cons c r ih =>
    simp only [utf8Encode, List.length_append, List.length_cons]
    have := utf8EncodeCp_len_pos c
    omega

theorem utf8DecodeF_encode (cps : List Nat) (h : ∀ c ∈ cps, ValidCp c) :
    ∀ f, cps.length ≤ f → utf8DecodeF f (utf8Encode cps) = some cps := by
  induction cps with
  | nil => intro f _; cases f <;> rfl
  | cons c r ih =>
    intro f hf
    cases f with
    | zero => simp at hf
    | succ f' =>
      show utf8DecodeF (f' + 1) (utf8EncodeCp c ++ utf8Encode r) = some (c :: r)
      rw [utf8DecodeF_step c (h c (by simp)) f' (utf8Encode r)]
      rw [ih (fun x hx => h x (by simp [hx])) f' (by simpa using hf)]
      rfl

theorem utf8Decode_encode (cps : List Nat) (h : ∀ c ∈ cps, ValidCp c) :
    utf8Decode (utf8Encode cps) = some cps :=
  utf8DecodeF_encode cps h _ (utf8Encode_len cps)

theorem utf8EncodeCp_bytes (c : Nat) (hc : ValidCp c) :
    ∀ b ∈ utf8EncodeCp c, b < 256 := by
  obtain ⟨h1, -⟩ := hc
  intro b hb
  unfold utf8EncodeCp at hb
  by_cases hA : c < 0x80
  · rw [if_pos hA] at hb; simp at hb; omega
  · rw [if_neg hA] at hb
    by_cases hB : c < 0x800
    · rw [if_pos hB] at hb; simp at hb; rcases hb with h | h <;> omega
    · rw [if_neg hB] at hb
      by_cases hC : c < 0x10000
      · rw [if_pos hC] at hb; simp at hb; rcases hb with h | h | h <;> omega
      · rw [if_neg hC] at hb; simp at hb; rcases hb with h | h | h | h <;> omega

theorem utf8Encode_bytes (cps : List Nat) (h : ∀ c ∈ cps, ValidCp c) :
    ∀ b ∈ utf8Encode cps, b < 256 := by
  induction cps with
  | nil => intro b hb; simp [utf8Encode] at hb
  | cons c r ih =>
    intro b hb
    simp only [utf8Encode, List.mem_append] at hb
    rcases hb with hb | hb
    · exact utf8EncodeCp_bytes c (h c (by simp)) b hb
    · exact ih (fun x hx => h x (by simp [hx])) b hb

theorem inflateRawF_final (f : Nat) (dat : List Nat) :
    inflateRawF (f + 1) (mkStored true dat) = some dat := by
  have hlen : dat.length % 256 + 256 * (dat.length / 256) = dat.length := by omega
  show inflateRawF (f + 1)
      (1 :: dat.length % 256 :: dat.length / 256
        :: (0xFFFF - dat.length) % 256 :: (0xFFFF - dat.length) / 256 :: dat) = some dat
  simp only [inflateRawF, hlen]
  rw [if_pos (by simp)]
  rw [if_pos ⟨by omega, Nat.le_refl _⟩]
  simp [List.drop_length, List.take_length]

theorem inflateRawF_part (f : Nat) (dat rest : List Nat) :
    inflateRawF (f + 1) (mkStored false dat ++ rest)
      = (inflateRawF f rest).map (dat ++ ·) := by
  have hlen : dat.length % 256 + 256 * (dat.length / 256) = dat.length := by omega
  show inflateRawF (f + 1)
      (0 :: dat.length % 256 :: dat.length / 256
        :: (0xFFFF - dat.length) % 256 :: (0xFFFF - dat.length) / 256 :: (dat ++ rest))
      = (inflateRawF f rest).map (dat ++ ·)
  simp only [inflateRawF, hlen]
  rw [if_pos (by simp)]
  rw [if_pos ⟨by omega, by simp⟩]
  simp [List.take_left, List.drop_left]

theorem mkStored_length (final : Bool) (dat : List Nat) :
    (mkStored final dat).length = dat.length + 5 := by
  simp [mkStored, toLE2]

theorem deflateRawF_length (fd : Nat) (bs : List Nat) :
    bs.length < (deflateRawF fd bs).length := by
  induction fd generalizing bs with
  | zero => rw [deflateRawF, mkStored_length]; omega
  | succ f ih =>
    rw [deflateRawF]
    by_cases hle : bs.length ≤ 65535
    · rw [if_pos hle, mkStored_length]; omega
    · rw [if_neg hle]
      have := ih (bs.drop 65535)
      simp only [List.length_append, mkStored_length, List.length_take, List.length_drop] at *
      omega

theorem inflate_deflateF (fd : Nat) :
    ∀ bs : List Nat, bs.length ≤ fd * 65535 + 65535 →
      ∀ fi, fd < fi → inflateRawF fi (deflateRawF fd bs) = some bs := by
  induction fd with
  | zero =>
    intro bs _ fi hfi
    cases fi with
    | zero => omega
    | succ f => exact inflateRawF_final f bs
  | succ fd ih =>
    intro bs hlen fi hfi
    cases fi with
    | zero => omega
    | succ f =>
      rw [deflateRawF]
      by_cases hle : bs.length ≤ 65535
      · rw [if_pos hle]; exact inflateRawF_final f bs
      · rw [if_neg hle]
        have htk : (bs.take 65535).length = 65535 := by
          simp [List.length_take]; omega
        rw [show mkStored false (bs.take 65535) ++ deflateRawF fd (bs.drop 65535)
            = mkStored false (bs.take 65535) ++ deflateRawF fd (bs.drop 65535) from rfl]
        rw [inflateRawF_part]
        rw [ih (bs.drop 65535) (by simp [List.length_drop]; omega) f (by omega)]
        simp [List.take_append_drop]

theorem inflate_deflate (bs : List Nat) : inflateRaw (deflateRaw bs) = some bs := by
  unfold inflateRaw deflateRaw
  exact inflate_deflateF bs.length bs (by omega) _ (deflateRawF_length bs.length bs)

theorem toLE2_bytes (n : Nat) (h : n ≤ 65535) : ∀ b ∈ toLE2 n, b < 256 := by
  intro b hb
  simp [toLE2] at hb
  rcases hb with hb | hb <;> omega

theorem mkStored_bytes (final : Bool) (dat : List Nat) (hd : ∀ b ∈ dat, b < 256)
    (hl : dat.length ≤ 65535) : ∀ b ∈ mkStored final dat, b < 256 := by
  intro b hb
  simp only [mkStored, List.cons_append, List.mem_cons, List.mem_append] at hb
  rcases hb with hb | (hb | hb) | hb
  · subst hb; cases final <;> simp
  · exact toLE2_bytes _ hl b hb
  · exact toLE2_bytes _ (by omega) b hb
  · exact hd b hb

theorem deflateRawF_bytes (fd : Nat) :
    ∀ bs : List Nat, bs.length ≤ fd * 65535 + 65535 → (∀ b ∈ bs, b < 256) →
      ∀ b ∈ deflateRawF fd bs, b < 256 := by
  induction fd with
  | zero =>
    intro bs hlen hbs
    rw [deflateRawF]
    exact mkStored_bytes true bs hbs (by omega)
  | succ fd ih =>
    intro bs hlen hbs
    rw [deflateRawF]
    by_cases hle : bs.length ≤ 65535
    · rw [if_pos hle]; exact mkStored_bytes true bs hbs hle
    · rw [if_neg hle]
      intro b hb
      rw [List.mem_append] at hb
      rcases hb with hb | hb
      · exact mkStored_bytes false (bs.take 65535)
          (fun x hx => hbs x (List.mem_of_mem_take hx))
          (by simp [List.length_take]) b hb
      · exact ih (bs.drop 65535) (by simp [List.length_drop]; omega)
          (fun x hx => hbs x (List.mem_of_mem_drop hx)) b hb

theorem deflateRaw_bytes (bs : List Nat) (h : ∀ b ∈ bs, b < 256) :
    ∀ b ∈ deflateRaw bs, b < 256 :=
  deflateRawF_bytes bs.length bs (by omega) h

theorem b64Val_char : ∀ n < 64, b64Val (b64Char n) = some n := by decide

theorem b64Char_ne_pad : ∀ n < 64, b64Char n ≠ '=' := by decide

theorem b64_swap : ∀ n < 64, swapIn (swapOut (b64Char n)) = b64Char n := by decide

theorem b64_swap_ne_pad : ∀ n < 64, swapOut (b64Char n) ≠ '=' := by decide

theorem b64DecodeCore_pad2 (c1 c2 : Char) (v1 v2 : Nat)
    (h1 : b64Val c1 = some v1) (h2 : b64Val c2 = some v2) :
    b64DecodeCore [c1, c2, '=', '='] = some [v1 * 4 + v2 / 16] := by
  simp only [b64DecodeCore, h1, h2]
  simp

theorem b64DecodeCore_pad1 (c1 c2 c3 : Char) (v1 v2 v3 : Nat)
    (h1 : b64Val c1 = some v1) (h2 : b64Val c2 = some v2) (h3 : b64Val c3 = some v3)
    (hc3 : c3 ≠ '=') :
    b64DecodeCore [c1, c2, c3, '='] = some [v1 * 4 + v2 / 16, v2 % 16 * 16 + v3 / 4] := by
  simp only [b64DecodeCore, h1, h2, h3]
  rw [if_neg hc3]
  simp

theorem b64DecodeCore_quad (c1 c2 c3 c4 : Char) (r : List Char) (v1 v2 v3 v4 : Nat)
    (h1 : b64Val c1 = some v1) (h2 : b64Val c2 = some v2) (h3 : b64Val c3 = some v3)
    (h4 : b64Val c4 = some v4) (hc3 : c3 ≠ '=') (hc4 : c4 ≠ '=') :
    b64DecodeCore (c1 :: c2 :: c3 :: c4 :: r)
      = (b64DecodeCore r).map
          (fun bs => (v1 * 4 + v2 / 16) :: (v2 % 16 * 16 + v3 / 4) :: (v3 % 4 * 64 + v4) :: bs) := by
  simp only [b64DecodeCore, h1, h2, h3, h4]
  rw [if_neg hc3, if_neg hc4]

theorem b64_decode_encode (N : Nat) :
    ∀ bs : List Nat, bs.length ≤ N → (∀ b ∈ bs, b < 256) →
      b64DecodeCore (b64EncodeCore bs) = some bs := by
  induction N with
  | zero =>
    intro bs hN _
    have hnil : bs = [] := List.length_eq_zero.mp (by omega)
    subst hnil
    rfl
  | succ N ih =>
    intro bs hN hb
    match bs with
    | [] => rfl
    | [a] =>
      have ha : a < 256 := hb a (by simp)
      show b64DecodeCore [b64Char (a / 4), b64Char (a % 4 * 16), '=', '='] = some [a]
      rw [b64DecodeCore_pad2 _ _ _ _ (b64Val_char _ (by omega)) (b64Val_char _ (by omega))]
      congr 1
      show [a / 4 * 4 + a % 4 * 16 / 16] = [a]
      congr 1
      omega
    | [a, b] =>
      have ha : a < 256 := hb a (by simp)
      have hb2 : b < 256 := hb b (by simp)
      show b64DecodeCore
          [b64Char (a / 4), b64Char (a % 4 * 16 + b / 16), b64Char (b % 16 * 4), '='] = some [a, b]
      rw [b64DecodeCore_pad1 _ _ _ _ _ _ (b64Val_char _ (by omega)) (b64Val_char _ (by omega))
        (b64Val_char _ (by omega)) (b64Char_ne_pad _ (by omega))]
      congr 1
      show [a / 4 * 4 + (a % 4 * 16 + b / 16) / 16,
        (a % 4 * 16 + b / 16) % 16 * 16 + b % 16 * 4 / 4] = [a, b]
      have e1 : a / 4 * 4 + (a % 4 * 16 + b / 16) / 16 = a := by omega
      have e2 : (a % 4 * 16 + b / 16) % 16 * 16 + b % 16 * 4 / 4 = b := by omega
      rw [e1, e2]
    | a :: b :: c :: r =>
      have ha : a < 256 := hb a (by simp)
      have hb2 : b < 256 := hb b (by simp)
      have hc : c < 256 := hb c (by simp)
      show b64DecodeCore (b64Char (a / 4) :: b64Char (a % 4 * 16 + b / 16)
          :: b64Char (b % 16 * 4 + c / 64) :: b64Char (c % 64) :: b64EncodeCore r)
        = some (a :: b :: c :: r)
      rw [b64DecodeCore_quad _ _ _ _ _ _ _ _ _ (b64Val_char _ (by omega))
        (b64Val_char _ (by omega)) (b64Val_char _ (by omega)) (b64Val_char _ (by omega))
        (b64Char_ne_pad _ (by omega)) (b64Char_ne_pad _ (by omega))]
      rw [ih r (by simp at hN; omega) (fun x hx => hb x (by simp [hx]))]
      show some ((a / 4 * 4 + (a % 4 * 16 + b / 16) / 16)
          :: ((a % 4 * 16 + b / 16) % 16 * 16 + (b % 16 * 4 + c / 64) / 4)
          :: ((b % 16 * 4 + c / 64) % 4 * 64 + c % 64) :: r) = some (a :: b :: c :: r)
      have e1 : a / 4 * 4 + (a % 4 * 16 + b / 16) / 16 = a := by omega
      have e2 : (a % 4 * 16 + b / 16) % 16 * 16 + (b % 16 * 4 + c / 64) / 4 = b := by omega
      have e3 : (b % 16 * 4 + c / 64) % 4 * 64 + c % 64 = c := by omega
      rw [e1, e2, e3]

theorem b64EncodeCore_shape (N : Nat) :
    ∀ bs : List Nat, bs.length ≤ N → (∀ b ∈ bs, b < 256) →
      ∃ body k, k < 3 ∧ b64EncodeCore bs = body ++ List.replicate k '=' ∧
        (∀ c ∈ body, ∃ n, n < 64 ∧ c = b64Char n) ∧ (body.length + k) % 4 = 0 := by
  induction N with
  | zero =>
    intro bs hN _
    have hnil : bs = [] := List.length_eq_zero.mp (by omega)
    subst hnil
    exact ⟨[], 0, by omega, rfl, by simp, by simp⟩
  | succ N ih =>
    intro bs hN hb
    match bs with
    | [] => exact ⟨[], 0, by omega, rfl, by simp, by simp⟩
    | [a] =>
      have ha : a < 256 := hb a (by simp)
      refine ⟨[b64Char (a / 4), b64Char (a % 4 * 16)], 2, by omega, rfl, ?_, by simp⟩
      intro c hc
      simp at hc
      rcases hc with hc | hc
      · exact ⟨a / 4, by omega, hc⟩
      · exact ⟨a % 4 * 16, by omega, hc⟩
    | [a, b] =>
      have ha : a < 256 := hb a (by simp)
      have hb2 : b < 256 := hb b (by simp)
      refine ⟨[b64Char (a / 4), b64Char (a % 4 * 16 + b / 16), b64Char (b % 16 * 4)], 1,
        by omega, rfl, ?_, by simp⟩
      intro c hc
      simp at hc
      rcases hc with hc | hc | hc
      · exact ⟨a / 4, by omega, hc⟩
      · exact ⟨a % 4 * 16 + b / 16, by omega, hc⟩
      · exact ⟨b % 16 * 4, by omega, hc⟩
    | a :: b :: c :: r =>
      have ha : a < 256 := hb a (by simp)
      have hb2 : b < 256 := hb b (by simp)
      have hc : c < 256 := hb c (by simp)
      obtain ⟨body, k, hk, henc, hbody, hmod⟩ :=
        ih r (by simp at hN; omega) (fun x hx => hb x (by simp [hx]))
      refine ⟨b64Char (a / 4) :: b64Char (a % 4 * 16 + b / 16)
          :: b64Char (b % 16 * 4 + c / 64) :: b64Char (c % 64) :: body, k, hk, ?_, ?_, ?_⟩
      · show b64Char (a / 4) :: b64Char (a % 4 * 16 + b / 16)
            :: b64Char (b % 16 * 4 + c / 64) :: b64Char (c % 64) :: b64EncodeCore r = _
        rw [henc]
        simp
      · intro x hx
        simp only [List.mem_cons] at hx
        rcases hx with hx | hx | hx | hx | hx
        · exact ⟨a / 4, by omega, hx⟩
        · exact ⟨a % 4 * 16 + b / 16, by omega, hx⟩
        · exact ⟨b % 16 * 4 + c / 64, by omega, hx⟩
        · exact ⟨c % 64, by omega, hx⟩
        · exact hbody x hx
      · simp only [List.length_cons]
        omega

theorem dropWhile_eq_self_of (p : Char → Bool) (l : List Char)
    (h : ∀ c ∈ l, p c = false) : l.dropWhile p = l := by
  cases l with
  | nil => rfl
  | cons d t =>
    rw [List.dropWhile_cons, h d (by simp)]
    rfl

theorem dropWhile_replicate (p : Char → Bool) (x : List Char) (k : Nat) (c : Char)
    (hp : p c = true) :
    (List.replicate k c ++ x).dropWhile p = x.dropWhile p := by
  induction k with
  | zero => rfl
  | succ k ihk =>
    rw [List.replicate_succ, List.cons_append, List.dropWhile_cons, hp]
    exact ihk

theorem stripPad_append (x : List Char) (k : Nat) (h : ∀ c ∈ x, c ≠ '=') :
    stripPad (x ++ List.replicate k '=') = x := by
  unfold stripPad
  rw [List.reverse_append, List.reverse_replicate]
  rw [dropWhile_replicate _ _ _ _ (by simp)]
  rw [dropWhile_eq_self_of _ _ (fun c hc => by
    simpa using h c (List.mem_reverse.mp hc))]
  exact List.reverse_reverse x

theorem restorePad_eq (x : List Char) (k : Nat) (hk : k < 3)
    (hmod : (x.length + k) % 4 = 0) :
    restorePad x = x ++ List.replicate k '=' := by
  unfold restorePad
  congr 2
  omega

theorem url_token_restore (bs : List Nat) (h : ∀ b ∈ bs, b < 256) :
    (restorePad (stripPad ((b64EncodeCore bs).map swapOut))).map swapIn
      = b64EncodeCore bs := by
  obtain ⟨body, k, hk, henc, hbody, hmod⟩ :=
    b64EncodeCore_shape bs.length bs (Nat.le_refl _) h
  rw [henc]
  rw [List.map_append, List.map_replicate]
  rw [show swapOut '=' = '=' from rfl]
  rw [stripPad_append _ _ (fun c hc => by
    obtain ⟨x, hx, hcx⟩ := List.mem_map.mp hc
    obtain ⟨n, hn, hxn⟩ := hbody x hx
    rw [← hcx, hxn]
    exact b64_swap_ne_pad n hn)]
  rw [restorePad_eq _ k hk (by simpa using hmod)]
  rw [List.map_append, List.map_map, List.map_replicate]
  rw [show swapIn '=' = '=' from rfl]
  congr 1
  calc body.map (swapIn ∘ swapOut)
      = body.map id := List.map_congr_left (fun x hx => by
        obtain ⟨n, hn, hxn⟩ := hbody x hx
        rw [hxn]
        exact b64_swap n hn)
    _ = body := List.map_id body

/-- C2.  For every valid UTF-8 string (list of Unicode scalar values), the
URL-state codec satisfies decode(encode(s)) = s — including the empty string
and multi-byte/emoji content — and encode is deterministic: encoding equal
inputs yields the same token. -/
theorem C2_codec_roundtrip (cps : List Nat) (h : ∀ c ∈ cps, ValidCp c) :
    urlDecode (urlEncode cps) = some cps ∧
    (∀ cps₂, cps₂ = cps → urlEncode cps₂ = urlEncode cps) := by
  constructor
  · unfold urlEncode urlDecode
    rw [url_token_restore _ (deflateRaw_bytes _ (utf8Encode_bytes cps h))]
    rw [b64_decode_encode (deflateRaw (utf8Encode cps)).length _ (Nat.le_refl _)
      (deflateRaw_bytes _ (utf8Encode_bytes cps h))]
    show (match inflateRaw (deflateRaw (utf8Encode cps)) with
      | none => none
      | some data => utf8Decode data) = some cps
    rw [inflate_deflate]
    exact utf8Decode_encode cps h
  · intro cps₂ he
    rw [he]

/-- Witness for C2 at the concrete input `[104, 105]` (the string `hi`). -/
theorem C2_codec_roundtrip_witness :
    (∀ c ∈ [104, 105], ValidCp c) ∧ urlDecode (urlEncode [104, 105]) = some [104, 105] :=
  ⟨by decide, (C2_codec_roundtrip [104, 105] (by decide)).1⟩

end Textarea
